import Mathlib

/-!
# MICA / cablastp: coarse store, compressed store and their file formats

A shallow embedding of `seq.go`, `coarse.go` and `rw.go`.

Conventions of the embedding.

* A Go byte is a natural number below 256; a `[]byte` and a Go `string` are
  both lists of bytes (`Bytes`).
* A chain of structs linked through `Next` pointers is the list of its
  nodes, head first; a `nil` pointer is the empty list.
* Fixed-width integers are `Int`s, narrowed with `wrap32`, `wrap16`,
  `wrap64` wherever the Go code stores into such a field or counts in one.
* A file is the list of its bytes.  Writing appends; `Truncate(0)` empties.
* Every function is modelled as run by itself.  Of the lock of a coarse
  sequence one fact is kept, whether the pointer to it is `nil`; the lock
  of a coarse database opened for writing is never `nil`.
* Code from outside the repository (gzip, the FASTA reader, the CSV
  codec, the Unicode case table, `os.File.Seek`) and the methods of the
  repository that are not among the source files are fields of `Extern`.
-/

namespace cablastp

/-- A Go `[]byte` or `string`. -/
abbrev Bytes := List Nat

/-- Outcomes other than a normal return. -/
inductive Err where
  | ioError       -- an error value coming from a read, a write or a seek
  | seekMismatch  -- `Seek` answered another offset than the one asked for
  | gzipErr       -- gzip framing could not be opened
  | decompress    -- `CompressedSeq.Decompress` failed
  | panic         -- a Go run-time panic (index out of range, explicit `panic`)
  deriving DecidableEq, Repr

/-! ## Fixed-width integers and `encoding/binary` (big endian) -/

/-- Conversion to `int16` (two's complement). -/
def wrap16 (x : Int) : Int :=
  let r := x % 65536
  if r < 32768 then r else r - 65536

/-- Conversion to `int32`, also the result of arithmetic in `int32`. -/
def wrap32 (x : Int) : Int :=
  let r := x % 4294967296
  if r < 2147483648 then r else r - 4294967296

/-- Conversion to `int64`, also the result of arithmetic in `int64`. -/
def wrap64 (x : Int) : Int :=
  let r := x % 18446744073709551616
  if r < 9223372036854775808 then r else r - 18446744073709551616

/-- The `n` low bytes of `u`, most significant first. -/
def beNat : Nat → Nat → Bytes
  | 0, _ => []
  | n + 1, u => beNat n (u / 256) ++ [u % 256]

/-- The value of a big-endian byte string, unsigned. -/
def beVal (bs : Bytes) : Nat := bs.foldl (fun acc b => acc * 256 + b) 0

/-- Output of `binary.Write(w, binary.BigEndian, x)` for an `int16`. -/
def be16 (x : Int) : Bytes := beNat 2 (x % 65536).toNat
/-- Output of `binary.Write(w, binary.BigEndian, x)` for an `int32`. -/
def be32 (x : Int) : Bytes := beNat 4 (x % 4294967296).toNat
/-- Output of `binary.Write(w, binary.BigEndian, x)` for an `int64`. -/
def be64 (x : Int) : Bytes := beNat 8 (x % 18446744073709551616).toNat

/-- A reader over the bytes still unread: `binary.Read` of a value of `n`
bytes.  Fewer than `n` bytes left is an error (`io.EOF` or
`io.ErrUnexpectedEOF`); nothing is consumed then. -/
def readN (n : Nat) (s : Bytes) : Except Err (Bytes × Bytes) :=
  if n ≤ s.length then .ok (s.take n, s.drop n) else .error .ioError

def read16 (s : Bytes) : Except Err (Int × Bytes) :=
  match readN 2 s with
  | .ok (b, rest) => .ok (wrap16 (beVal b), rest)
  | .error e => .error e

def read32 (s : Bytes) : Except Err (Int × Bytes) :=
  match readN 4 s with
  | .ok (b, rest) => .ok (wrap32 (beVal b), rest)
  | .error e => .error e

def read64 (s : Bytes) : Except Err (Int × Bytes) :=
  match readN 8 s with
  | .ok (b, rest) => .ok (wrap64 (beVal b), rest)
  | .error e => .error e

/-! ## `unicode/utf8`, `unicode.ToUpper`, `strings.ToUpper`, `strings.Replace` -/

/-- The rune `utf8.RuneError`, U+FFFD. -/
def RuneError : Nat := 0xFFFD

def isCont (b : Nat) : Bool := 0x80 ≤ b && b ≤ 0xBF

/-- `utf8.DecodeRuneInString`: the rune at the head of the string and its
width in bytes.  Ill-formed input decodes to `(RuneError, 1)`. -/
def decodeRune : Bytes → Nat × Nat
  | [] => (RuneError, 0)
  | b0 :: rest =>
    if b0 < 0x80 then (b0, 1)
    else if b0 < 0xC2 then (RuneError, 1)
    else if b0 < 0xE0 then
      match rest with
      | b1 :: _ =>
        if isCont b1 then ((b0 % 32) * 64 + b1 % 64, 2) else (RuneError, 1)
      | _ => (RuneError, 1)
    else if b0 < 0xF0 then
      match rest with
      | b1 :: b2 :: _ =>
        let lo := if b0 = 0xE0 then 0xA0 else 0x80
        let hi := if b0 = 0xED then 0x9F else 0xBF
        if lo ≤ b1 && b1 ≤ hi && isCont b2 then
          ((b0 % 16) * 4096 + (b1 % 64) * 64 + b2 % 64, 3)
        else (RuneError, 1)
      | _ => (RuneError, 1)
    else if b0 < 0xF5 then
      match rest with
      | b1 :: b2 :: b3 :: _ =>
        let lo := if b0 = 0xF0 then 0x90 else 0x80
        let hi := if b0 = 0xF4 then 0x8F else 0xBF
        if lo ≤ b1 && b1 ≤ hi && isCont b2 && isCont b3 then
          ((b0 % 8) * 262144 + (b1 % 64) * 4096 + (b2 % 64) * 64 + b3 % 64, 4)
        else (RuneError, 1)
      | _ => (RuneError, 1)
    else (RuneError, 1)

/-- `utf8.EncodeRune`: surrogates and values above U+10FFFF are written
as U+FFFD. -/
def encodeRune (r : Nat) : Bytes :=
  if r < 0x80 then [r]
  else if r < 0x800 then [0xC0 + r / 64, 0x80 + r % 64]
  else if 0x10FFFF < r ∨ (0xD800 ≤ r ∧ r ≤ 0xDFFF) then [0xEF, 0xBF, 0xBD]
  else if r < 0x10000 then [0xE0 + r / 4096, 0x80 + r / 64 % 64, 0x80 + r % 64]
  else [0xF0 + r / 262144, 0x80 + r / 4096 % 64, 0x80 + r / 64 % 64, 0x80 + r % 64]

/-- `unicode.ToUpper`.  Above U+007F Go consults the table
`unicode.CaseRanges`.  Its two ranges for the small letters of Latin-1,
U+00E0 to U+00F6 and U+00F8 to U+00FE, both 32 above their capitals, are
written out; the rest of the table is the parameter `caseTab`. -/
def unicodeToUpper (caseTab : Nat → Nat) (r : Nat) : Nat :=
  if r ≤ 0x7F then
    if 0x61 ≤ r ∧ r ≤ 0x7A then r - 0x20 else r
  else if (0xE0 ≤ r ∧ r ≤ 0xF6) ∨ (0xF8 ≤ r ∧ r ≤ 0xFE) then r - 0x20
  else caseTab r

/-- `strings.Map(mapping, s)` for a mapping without negative results: the
runes of `s` are decoded one after the other and the image of each is
encoded.  `skip` counts the bytes of the current rune still to pass over. -/
def stringsMap (mapping : Nat → Nat) : Nat → Bytes → Bytes
  | _, [] => []
  | skip + 1, _ :: rest => stringsMap mapping skip rest
  | 0, b :: rest =>
    encodeRune (mapping (decodeRune (b :: rest)).1)
      ++ stringsMap mapping ((decodeRune (b :: rest)).2 - 1) rest

/-- `strings.ToUpper`: a string of ASCII bytes is upper-cased byte by byte,
any other string goes through `strings.Map(unicode.ToUpper, s)`. -/
def stringsToUpper (caseTab : Nat → Nat) (s : Bytes) : Bytes :=
  if s.all (fun c => decide (c < 0x80)) then
    s.map (fun c => if 0x61 ≤ c ∧ c ≤ 0x7A then c - 0x20 else c)
  else stringsMap (unicodeToUpper caseTab) 0 s

/-- `strings.Replace(s, "*", "", -1)`. -/
def stripStars (s : Bytes) : Bytes := s.filter (fun c => decide (c ≠ 0x2A))

/-! ## `seq.go` -/

/-- The struct `sequence`. -/
structure sequence where
  Name : Bytes
  Residues : Bytes
  Offset : Int
  Id : Int
  deriving DecidableEq, Repr

/-- `newSeq`. -/
def newSeq (caseTab : Nat → Nat) (id : Int) (name : Bytes) (residues : Bytes) : sequence :=
  let residuesStr := stringsToUpper caseTab residues
  let residuesStr := stripStars residuesStr
  { Name := name, Residues := residuesStr, Offset := 0, Id := id }

/-- `sequence.Len`. -/
def sequence.Len (seq : sequence) : Int := seq.Residues.length

/-- The slice expression `b[start:end]` for `0 ≤ start ≤ end ≤ len(b)`. -/
def slice (b : Bytes) (start stop : Int) : Bytes :=
  (b.drop start.toNat).take (stop.toNat - start.toNat)

/-- `sequence.newSubSequence`; the explicit `panic` is `Err.panic`. -/
def sequence.newSubSequence (caseTab : Nat → Nat) (seq : sequence) (start stop : Int) :
    Except Err sequence :=
  if start < 0 ∨ start ≥ stop ∨ stop > seq.Len then .error .panic
  else
    let s := newSeq caseTab seq.Id seq.Name (slice seq.Residues start stop)
    let s := { s with Offset := s.Offset + start }
    .ok s

/-- The struct `LinkToCompressed` without its `Next` pointer: a chain of
links is a `List LinkToCompressed`.  `OrgSeqId` is an `int32`, the two
coordinates are `int16`. -/
structure LinkToCompressed where
  OrgSeqId : Int
  CoarseStart : Int
  CoarseEnd : Int
  deriving DecidableEq, Repr

/-- Modelled from the spec: `NewLinkToCompressed` is not among the source
files; it builds the link from an `int32` and two `int16` values. -/
def NewLinkToCompressed (orgSeqId coarseStart coarseEnd : Int) : LinkToCompressed :=
  { OrgSeqId := orgSeqId, CoarseStart := coarseStart, CoarseEnd := coarseEnd }

/-- The struct `CoarseSeq`: the embedded `sequence` and the chain `Links`. -/
structure CoarseSeq extends sequence where
  Links : List LinkToCompressed
  /-- Whether the pointer `linkLock` is not `nil`. -/
  linkLock : Bool
  deriving DecidableEq, Repr

/-- `NewCoarseSeq`. -/
def NewCoarseSeq (caseTab : Nat → Nat) (id : Int) (name : Bytes) (residues : Bytes) :
    CoarseSeq :=
  { tosequence := newSeq caseTab id name residues, Links := [], linkLock := true }

/-- The loop `for ; lk.Next != nil; lk = lk.Next {}` followed by
`lk.Next = link`, on a chain that is not empty. -/
def setLastNext {α : Type} : List α → List α → List α
  | [], link => link
  | [lk], link => lk :: link
  | lk :: nxt :: more, link => lk :: setLastNext (nxt :: more) link

/-- `CoarseSeq.addLink`; `link` is the chain that starts at the pointer
handed in. -/
def CoarseSeq.addLink (rseq : CoarseSeq) (link : List LinkToCompressed) : CoarseSeq :=
  match rseq.Links with
  | [] => { rseq with Links := link }
  | lk :: more => { rseq with Links := setLastNext (lk :: more) link }

/-- `CoarseSeq.AddLink`: `addLink` between `Lock` and `Unlock`; locking
through a `nil` pointer is a run-time panic. -/
def CoarseSeq.AddLink (rseq : CoarseSeq) (link : List LinkToCompressed) :
    Except Err CoarseSeq :=
  if rseq.linkLock then .ok (rseq.addLink link) else .error .panic

/-- `CoarseSeq.NewSubSequence`. -/
def CoarseSeq.NewSubSequence (caseTab : Nat → Nat) (rseq : CoarseSeq) (start stop : Int) :
    Except Err CoarseSeq :=
  match rseq.tosequence.newSubSequence caseTab start stop with
  | .ok s => .ok { tosequence := s, Links := [], linkLock := false }
  | .error e => .error e

/-- The struct `OriginalSeq`. -/
structure OriginalSeq extends sequence where
  deriving DecidableEq, Repr

/-- `NewOriginalSeq`. -/
def NewOriginalSeq (caseTab : Nat → Nat) (id : Int) (name : Bytes) (residues : Bytes) :
    OriginalSeq :=
  { tosequence := newSeq caseTab id name residues }

/-! ## Seeds, links to coarse sequences, the two databases -/

/-- The struct `SeedLoc` without its `Next` pointer (`int32`, `int16`). -/
structure SeedLoc where
  SeqInd : Int
  ResInd : Int
  deriving DecidableEq, Repr

/-- Modelled from the spec: `NewSeedLoc` is not among the source files. -/
def NewSeedLoc (seqInd resInd : Int) : SeedLoc := { SeqInd := seqInd, ResInd := resInd }

/-- Modelled from the spec: the struct `Seeds` is declared outside the
source files.  `Locs` is the table of chain heads, `powers[i]` is the
`i`-th power of the alphabet size. -/
structure Seeds where
  Locs : List (List SeedLoc)
  SeedSize : Nat
  LowComplexityWindow : Int
  powers : List Int
  deriving DecidableEq, Repr

/-- Modelled from the spec: the struct `LinkToCoarse` is declared outside
the source files; its three integers are 32 bits wide. -/
structure LinkToCoarse where
  CoarseSeqId : Int
  CoarseStart : Int
  CoarseEnd : Int
  Diff : Bytes
  deriving DecidableEq, Repr

/-- Modelled from the spec: `NewLinkToCoarseNoDiff` is not among the source
files; it converts its three `int` arguments to the width of the fields. -/
def NewLinkToCoarseNoDiff (coarseSeqId coarseStart coarseEnd : Int) : LinkToCoarse :=
  { CoarseSeqId := wrap32 coarseSeqId, CoarseStart := wrap32 coarseStart,
    CoarseEnd := wrap32 coarseEnd, Diff := [] }

/-- Modelled from the spec: the struct `CompressedSeq` is declared outside
the source files: an id, a name and an ordered sequence of links. -/
structure CompressedSeq where
  Id : Int
  Name : Bytes
  Links : List LinkToCoarse
  deriving DecidableEq, Repr

/-- The zero value `CompressedSeq{}`. -/
def CompressedSeq.zero : CompressedSeq := { Id := 0, Name := [], Links := [] }

/-- The zero value `LinkToCoarse{}`. -/
def LinkToCoarse.zero : LinkToCoarse :=
  { CoarseSeqId := 0, CoarseStart := 0, CoarseEnd := 0, Diff := [] }

/-- Modelled from the spec: `CompressedSeq.Add` is not among the source
files; the links of a compressed sequence are an ordered sequence and `Add`
puts the new link at its end. -/
def CompressedSeq.Add (cseq : CompressedSeq) (link : LinkToCoarse) : CompressedSeq :=
  { cseq with Links := cseq.Links ++ [link] }

/-- The struct `CoarseDB` of a database opened for writing; each file is
its content.  `seqLock` is set in such a database and is left out. -/
structure CoarseDB where
  Seqs : List CoarseSeq
  seqsRead : Int
  Seeds : Seeds
  FileFasta : Bytes
  FileSeeds : Bytes
  FileLinks : Bytes
  FileLinksIndex : Bytes
  readOnly : Bool
  plain : Bool
  plainLinks : Bytes
  plainSeeds : Bytes
  deriving DecidableEq, Repr

/-- Modelled from the spec: the struct `CompressedDB` is declared outside
the source files: a data file and its index file, and in read mode the
`csv.Reader` on the data file, which lives as long as the database.  Of
the reader the field `csvReader` keeps what passes from one `Read` to the
next: the bytes it has taken from the file into its buffer and not yet
handed out.  It holds none when the database is opened. -/
structure CompressedDB where
  File : Bytes
  Index : Bytes
  csvReader : Bytes := []
  deriving DecidableEq, Repr

/-- What the code calls but does not define. -/
structure Extern where
  /-- `unicode.ToUpper` above U+007F. -/
  caseTab : Nat → Nat
  /-- `Seeds.Add(id, corSeq)` (not among the source files). -/
  seedsAdd : Seeds → Int → CoarseSeq → Seeds
  /-- `NewSeeds(seedSize, lowComplexityWindow)` (not among the source files). -/
  NewSeeds : Int → Int → Seeds
  /-- `Seeds.unhashKmer` (not among the source files). -/
  unhashKmer : Seeds → Int → Bytes
  /-- What a gzip writer leaves in its file for a given payload. -/
  gzip : Bytes → Bytes
  /-- What a gzip reader yields for a file, or the error of `NewReader`. -/
  gunzip : Bytes → Except Err Bytes
  /-- The entries `(ID, Seq)` the FASTA reader yields up to end of file. -/
  fastaRead : Bytes → Except Err (List (Bytes × Bytes))
  /-- `csv.Writer.Write` and `Flush`: the bytes of one record. -/
  csvWrite : List Bytes → Bytes
  /-- `csv.Reader.Read` on the reader of the compressed database: from the
  bytes the reader holds in its buffer, the data file and the offset the
  file is at, the record read and the bytes the reader holds afterwards.
  The reader reads on from the file only when its buffer does not hold
  the whole record. -/
  csvRead : Bytes → Bytes → Nat → Except Err (List Bytes × Bytes)
  /-- `os.File.Seek(off, SEEK_SET)`: the offset reached, or an error. -/
  seek : Int → Except Err Int
  /-- `CompressedSeq.Decompress` (not among the source files). -/
  Decompress : CoarseDB → CompressedSeq → Except Err OriginalSeq

/-! ## `strconv.Atoi` and `fmt.Sprintf("%d", _)` -/

def fmtNatAux : Nat → Nat → Bytes → Bytes
  | 0, _, acc => acc
  | fuel + 1, n, acc =>
    if n < 10 then (0x30 + n) :: acc
    else fmtNatAux fuel (n / 10) ((0x30 + n % 10) :: acc)

/-- The decimal digits of `n` in ASCII. -/
def fmtNat (n : Nat) : Bytes := fmtNatAux (n + 1) n []

/-- Output of the verb `%d` for an integer. -/
def fmtInt (i : Int) : Bytes :=
  if i < 0 then 0x2D :: fmtNat (-i).toNat else fmtNat i.toNat

def parseDigits : Bytes → Nat → Option Nat
  | [], acc => some acc
  | c :: cs, acc =>
    if 0x30 ≤ c ∧ c ≤ 0x39 then parseDigits cs (acc * 10 + (c - 0x30)) else none

/-- `strconv.Atoi` on a 64-bit platform; `none` stands for a non-nil
error (`ErrSyntax` or `ErrRange`). -/
def Atoi (s : Bytes) : Option Int :=
  match s with
  | [] => none
  | c :: cs =>
    let neg := decide (c = 0x2D)
    let ds := if c = 0x2D ∨ c = 0x2B then cs else c :: cs
    if ds.isEmpty then none
    else
      match parseDigits ds 0 with
      | none => none
      | some n =>
        if neg then (if n ≤ 9223372036854775808 then some (-(n : Int)) else none)
        else (if n < 9223372036854775808 then some (n : Int) else none)

/-! ## `coarse.go` -/

/-- `CoarseDB.Add`: the identifier, the new coarse sequence and the
database afterwards. -/
def CoarseDB.Add (x : Extern) (coarsedb : CoarseDB) (oseq : Bytes) :
    (Int × CoarseSeq) × CoarseDB :=
  let id : Int := coarsedb.Seqs.length
  let corSeq := NewCoarseSeq x.caseTab id [] oseq
  let seqs := coarsedb.Seqs ++ [corSeq]
  let seeds := x.seedsAdd coarsedb.Seeds id corSeq
  ((id, corSeq), { coarsedb with Seqs := seqs, Seeds := seeds })

/-- `CoarseDB.CoarseSeqGet`; an index outside `Seqs` is a panic. -/
def CoarseDB.CoarseSeqGet (coarsedb : CoarseDB) (i : Int) : Except Err CoarseSeq :=
  if i < 0 then .error .panic
  else
    match coarsedb.Seqs[i.toNat]? with
    | some seq => .ok seq
    | none => .error .panic

/-- `CoarseDB.linkOffset`. -/
def CoarseDB.linkOffset (x : Extern) (coarsedb : CoarseDB) (id : Int) : Except Err Int :=
  let tryOff := wrap64 (wrap64 id * 8)
  match x.seek tryOff with
  | .error e => .error e
  | .ok realOff =>
    if tryOff ≠ realOff then .error .seekMismatch
    else
      match read64 (coarsedb.FileLinksIndex.drop tryOff.toNat) with
      | .error e => .error e
      | .ok (seqOff, _) => .ok seqOff

/-- Modelled from the spec: `CoarseDB.readLink` is not among the source
files; it reads the next link record of the links file, big-endian
`(orgSeqId: i32, coarseStart: i16, coarseEnd: i16)`. -/
def readLink (s : Bytes) : Except Err (LinkToCompressed × Bytes) :=
  match read32 s with
  | .error e => .error e
  | .ok (orgSeqId, s1) =>
    match read16 s1 with
    | .error e => .error e
    | .ok (coarseStart, s2) =>
      match read16 s2 with
      | .error e => .error e
      | .ok (coarseEnd, s3) => .ok (NewLinkToCompressed orgSeqId coarseStart coarseEnd, s3)

/-! ## `rw.go`: the compressed database -/

/-- `CompressedDB.orgSeqOffset`. -/
def CompressedDB.orgSeqOffset (x : Extern) (comdb : CompressedDB) (id : Int) :
    Except Err Int :=
  let tryOff := wrap64 (wrap64 id * 8)
  match x.seek tryOff with
  | .error e => .error e
  | .ok realOff =>
    if tryOff ≠ realOff then .error .seekMismatch
    else
      match read64 (comdb.Index.drop tryOff.toNat) with
      | .error e => .error e
      | .ok (seqOff, _) => .ok seqOff

/-- The loop of `readCompressedSeq` over the fields from `record[i]` on.
Every `return CompressedSeq{}, nil` of the source is `.ok (zero, none)`;
indexing past the end of `record` is a panic. -/
def readCompressedLinks : List Bytes → CompressedSeq → Except Err (CompressedSeq × Option Err)
  | [], cseq => .ok (cseq, none)
  | f0 :: rest, cseq =>
    match Atoi f0 with
    | none => .ok (CompressedSeq.zero, none)
    | some coarseSeqId64 =>
      match rest with
      | [] => .error .panic
      | f1 :: rest1 =>
        match Atoi f1 with
        | none => .ok (CompressedSeq.zero, none)
        | some coarseStart64 =>
          match rest1 with
          | [] => .error .panic
          | f2 :: rest2 =>
            match Atoi f2 with
            | none => .ok (CompressedSeq.zero, none)
            | some coarseEnd64 =>
              match rest2 with
              | [] => .error .panic
              | f3 :: rest3 =>
                let lk := NewLinkToCoarseNoDiff coarseSeqId64 coarseStart64 coarseEnd64
                let lk := { lk with Diff := f3 }
                readCompressedLinks rest3 (cseq.Add lk)

/-- `readCompressedSeq`: the pair `(CompressedSeq, error)` it returns, or
the panic it ends in. -/
def readCompressedSeq (id : Int) (record : List Bytes) :
    Except Err (CompressedSeq × Option Err) :=
  match record with
  | [] => .error .panic
  | name :: fields =>
    let cseq : CompressedSeq :=
      { Id := id, Name := name,
        Links := List.replicate ((record.length - 1) / 4) LinkToCoarse.zero }
    readCompressedLinks fields cseq

/-- `CompressedDB.ReadSeq`: the seek moves `File`, the record comes from
`comdb.csvReader`, whose buffer the seek does not touch.  The result
carries the database as the call leaves it. -/
def CompressedDB.ReadSeq (x : Extern) (comdb : CompressedDB) (coarsedb : CoarseDB)
    (orgSeqId : Int) : Except Err (OriginalSeq × CompressedDB) :=
  match comdb.orgSeqOffset x orgSeqId with
  | .error e => .error e
  | .ok off =>
    match x.seek off with
    | .error e => .error e
    | .ok newOff =>
      if newOff ≠ off then .error .seekMismatch
      else
        match x.csvRead comdb.csvReader comdb.File off.toNat with
        | .error e => .error e
        | .ok (record, buffered) =>
          match readCompressedSeq orgSeqId record with
          | .error e => .error e
          | .ok (_, some e) => .error e
          | .ok (cseq, none) =>
            match x.Decompress coarsedb cseq with
            | .error e => .error e
            | .ok oseq => .ok (oseq, { comdb with csvReader := buffered })

/-- The record `CompressedDB.writer` builds for one compressed sequence. -/
def writerRecord (cseq : CompressedSeq) : List Bytes :=
  cseq.Name :: cseq.Links.flatMap (fun link =>
    [fmtInt link.CoarseSeqId, fmtInt link.CoarseStart, fmtInt link.CoarseEnd, link.Diff])

/-- The variables of `CompressedDB.writer` between two rounds of its
loop. -/
structure WriterState where
  File : Bytes
  Index : Bytes
  byteOffset : Int
  deriving DecidableEq, Repr

/-- `os.File.Write` at the end of a file.  A file offset is an `int64`:
the write that would take the file past the largest offset fails. -/
def fileWrite (file buf : Bytes) : Except Err Bytes :=
  if file.length + buf.length ≤ 9223372036854775807 then .ok (file ++ buf)
  else .error .ioError

/-- One round of the loop of `CompressedDB.writer`; an error is the round
ending in `os.Exit(1)`. -/
def writerStep (x : Extern) (st : WriterState) (cseq : CompressedSeq) :
    Except Err WriterState :=
  let buf := x.csvWrite (writerRecord cseq)
  match fileWrite st.File buf with
  | .error e => .error e
  | .ok file =>
    .ok { File := file,
          Index := st.Index ++ be64 st.byteOffset,
          byteOffset := wrap64 (st.byteOffset + buf.length) }

/-- The loop of `CompressedDB.writer` over the values received. -/
def writerLoop (x : Extern) : WriterState → List CompressedSeq → Except Err WriterState
  | st, [] => .ok st
  | st, cseq :: more =>
    match writerStep x st cseq with
    | .error e => .error e
    | .ok st1 => writerLoop x st1 more

/-- `CompressedDB.writer` on the values sent on `writerChan` until it is
closed. -/
def CompressedDB.writer (x : Extern) (comdb : CompressedDB) (sent : List CompressedSeq) :
    Except Err CompressedDB :=
  match writerLoop x { File := comdb.File, Index := comdb.Index, byteOffset := 0 } sent with
  | .error e => .error e
  | .ok st => .ok { comdb with File := st.File, Index := st.Index }

/-! ## `coarse.go`: `Expand` -/

/-- The loop of `CoarseDB.Expand`: `comdb` is the compressed database as
the calls of `ReadSeq` so far have left it, `n` link records are still to
be read from `s`, `ids` are the keys set in the map, `oseqs` the slice so
far. -/
def expandLoop (x : Extern) (coarsedb : CoarseDB) :
    CompressedDB → Nat → Bytes → List Int → List OriginalSeq →
      Except Err (List OriginalSeq × CompressedDB)
  | comdb, 0, _, _, oseqs => .ok (oseqs, comdb)
  | comdb, n + 1, s, ids, oseqs =>
    match readLink s with
    | .error e => .error e
    | .ok (compLink, s1) =>
      if ids.contains compLink.OrgSeqId then expandLoop x coarsedb comdb n s1 ids oseqs
      else
        match comdb.ReadSeq x coarsedb compLink.OrgSeqId with
        | .error e => .error e
        | .ok (oseq, comdb1) =>
          expandLoop x coarsedb comdb1 n s1 (compLink.OrgSeqId :: ids) (oseqs ++ [oseq])

/-- `CoarseDB.Expand`.  A negative `numLinks` makes
`make([]OriginalSeq, 0, numLinks)` panic.  The result carries the
compressed database as the call leaves it. -/
def CoarseDB.Expand (x : Extern) (coarsedb : CoarseDB) (comdb : CompressedDB) (id : Int) :
    Except Err (List OriginalSeq × CompressedDB) :=
  match coarsedb.linkOffset x id with
  | .error e => .error e
  | .ok off =>
    match x.seek off with
    | .error e => .error e
    | .ok newOff =>
      if newOff ≠ off then .error .seekMismatch
      else
        match read32 (coarsedb.FileLinks.drop off.toNat) with
        | .error e => .error e
        | .ok (numLinks, s) =>
          if numLinks < 0 then .error .panic
          else expandLoop x coarsedb comdb numLinks.toNat s [] []

/-- `ReadSeq` called for each id of the list in turn, every call on the
compressed database as the call before left it. -/
def readSeqCalls (x : Extern) (coarsedb : CoarseDB) :
    CompressedDB → List Int → Except Err (List OriginalSeq × CompressedDB)
  | comdb, [] => .ok ([], comdb)
  | comdb, i :: more =>
    match comdb.ReadSeq x coarsedb i with
    | .error e => .error e
    | .ok (oseq, comdb1) =>
      match readSeqCalls x coarsedb comdb1 more with
      | .error e => .error e
      | .ok (oseqs, comdb2) => .ok (oseq :: oseqs, comdb2)

/-! ## `rw.go`: the files of the coarse database -/

/-- The loop of `CoarseDB.readFasta`: entry number `i` of the file becomes
the coarse sequence `NewBiogoCoarseSeq(i, seq)`. -/
def readFastaEntries (caseTab : Nat → Nat) : List (Bytes × Bytes) → Nat → List CoarseSeq
  | [], _ => []
  | (name, residues) :: more, i =>
    NewCoarseSeq caseTab i name residues :: readFastaEntries caseTab more (i + 1)

/-- `CoarseDB.readFasta`. -/
def CoarseDB.readFasta (x : Extern) (coarsedb : CoarseDB) : Except Err CoarseDB :=
  match x.fastaRead coarsedb.FileFasta with
  | .error e => .error e
  | .ok entries =>
    .ok { coarsedb with Seqs := coarsedb.Seqs ++ readFastaEntries x.caseTab entries 0 }

/-- The text `fmt.Fprintf(w, "> %d\n%s\n", i, residues)` writes. -/
def fastaEntry (i : Int) (residues : Bytes) : Bytes :=
  [0x3E, 0x20] ++ fmtInt i ++ [0x0A] ++ residues ++ [0x0A]

/-- The loop of `CoarseDB.saveFasta` over `Seqs[i:]`, given as `seqs`. -/
def saveFastaFrom : List CoarseSeq → Int → Bytes
  | [], _ => []
  | seq :: more, i => fastaEntry i seq.Residues ++ saveFastaFrom more (i + 1)

/-- `CoarseDB.saveFasta`.  A negative `seqsRead` makes `Seqs[i]` panic in
the first round. -/
def CoarseDB.saveFasta (coarsedb : CoarseDB) : Except Err CoarseDB :=
  if coarsedb.seqsRead < 0 then .error .panic
  else
    .ok { coarsedb with
      FileFasta := coarsedb.FileFasta
        ++ saveFastaFrom (coarsedb.Seqs.drop coarsedb.seqsRead.toNat) coarsedb.seqsRead }

/-- The body of the inner loop of `CoarseDB.readSeeds` after the two
reads: the new location goes to the end of the chain of bucket `hash`. -/
def addSeedLoc (locs : List (List SeedLoc)) (hash : Int) (sl : SeedLoc) :
    Except Err (List (List SeedLoc)) :=
  if hash < 0 then .error .panic
  else
    match locs[hash.toNat]? with
    | none => .error .panic
    | some [] => .ok (locs.set hash.toNat [sl])
    | some (lk :: more) => .ok (locs.set hash.toNat (setLastNext (lk :: more) [sl]))

/-- The inner loop of `CoarseDB.readSeeds`, `n` rounds. -/
def readSeedLocs (hash : Int) : Nat → Bytes → List (List SeedLoc) →
    Except Err (List (List SeedLoc) × Bytes)
  | 0, s, locs => .ok (locs, s)
  | n + 1, s, locs =>
    match read32 s with
    | .error e => .error e
    | .ok (seqInd, s1) =>
      match read16 s1 with
      | .error e => .error e
      | .ok (resInd, s2) =>
        match addSeedLoc locs hash (NewSeedLoc seqInd resInd) with
        | .error e => .error e
        | .ok locs1 => readSeedLocs hash n s2 locs1

/-- The outer loop of `CoarseDB.readSeeds` on the unframed payload.  Every
round that goes on consumes eight bytes, so `fuel` above the length of the
payload is never used up. -/
def readSeedsLoop : Nat → Bytes → List (List SeedLoc) → Except Err (List (List SeedLoc))
  | 0, _, _ => .error .panic
  | fuel + 1, s, locs =>
    match read32 s with
    | .error _ => .ok locs
    | .ok (hash, s1) =>
      match read32 s1 with
      | .error e => .error e
      | .ok (cnt, s2) =>
        match readSeedLocs hash cnt.toNat s2 locs with
        | .error e => .error e
        | .ok (locs1, s3) => readSeedsLoop fuel s3 locs1

/-- `CoarseDB.readSeeds` on the unframed payload. -/
def readSeedsPayload (payload : Bytes) (locs : List (List SeedLoc)) :
    Except Err (List (List SeedLoc)) :=
  readSeedsLoop (payload.length + 1) payload locs

/-- `CoarseDB.readSeeds`. -/
def CoarseDB.readSeeds (x : Extern) (coarsedb : CoarseDB) : Except Err CoarseDB :=
  match x.gunzip coarsedb.FileSeeds with
  | .error e => .error e
  | .ok payload =>
    match readSeedsPayload payload coarsedb.Seeds.Locs with
    | .error e => .error e
    | .ok locs => .ok { coarsedb with Seeds := { coarsedb.Seeds with Locs := locs } }

/-- The bytes of one seed location in `saveSeeds`. -/
def seedLocBytes (loc : SeedLoc) : Bytes := be32 loc.SeqInd ++ be16 loc.ResInd

/-- The loop of `CoarseDB.saveSeeds` from bucket `i` on, `n` rounds. -/
def saveSeedsFrom (locs : List (List SeedLoc)) : Nat → Nat → Except Err Bytes
  | 0, _ => .ok []
  | n + 1, i =>
    match locs[i]? with
    | none => .error .panic
    | some chain =>
      match saveSeedsFrom locs n (i + 1) with
      | .error e => .error e
      | .ok more =>
        if chain.isEmpty then .ok more
        else
          .ok (be32 i ++ be32 (wrap32 chain.length) ++ chain.flatMap seedLocBytes ++ more)

/-- The unframed payload of `CoarseDB.saveSeeds`. -/
def saveSeedsPayload (seeds : Seeds) : Except Err Bytes :=
  match seeds.powers[seeds.SeedSize]? with
  | none => .error .panic
  | some p => saveSeedsFrom seeds.Locs (wrap32 p).toNat 0

/-- `CoarseDB.saveSeeds`. -/
def CoarseDB.saveSeeds (x : Extern) (coarsedb : CoarseDB) : Except Err CoarseDB :=
  match saveSeedsPayload coarsedb.Seeds with
  | .error e => .error e
  | .ok payload => .ok { coarsedb with FileSeeds := coarsedb.FileSeeds ++ x.gzip payload }

/-- The loop of `CoarseDB.saveSeedsPlain` from bucket `i` on, `n` rounds. -/
def saveSeedsPlainFrom (x : Extern) (seeds : Seeds) : Nat → Nat → Except Err Bytes
  | 0, _ => .ok []
  | n + 1, i =>
    match seeds.Locs[i]? with
    | none => .error .panic
    | some chain =>
      match saveSeedsPlainFrom x seeds n (i + 1) with
      | .error e => .error e
      | .ok more =>
        if chain.isEmpty then .ok more
        else
          .ok (x.csvWrite (x.unhashKmer seeds i ::
            chain.flatMap (fun loc => [fmtInt loc.SeqInd, fmtInt loc.ResInd])) ++ more)

/-- `CoarseDB.saveSeedsPlain`. -/
def CoarseDB.saveSeedsPlain (x : Extern) (coarsedb : CoarseDB) : Except Err CoarseDB :=
  match coarsedb.Seeds.powers[coarsedb.Seeds.SeedSize]? with
  | none => .error .panic
  | some p =>
    match saveSeedsPlainFrom x coarsedb.Seeds p.toNat 0 with
    | .error e => .error e
    | .ok text => .ok { coarsedb with plainSeeds := coarsedb.plainSeeds ++ text }

/-- The inner loop of `CoarseDB.readLinks`, `n` rounds, for the coarse
sequence `coarseSeqId`. -/
def readLinkRecs (coarseSeqId : Nat) : Nat → Bytes → List CoarseSeq →
    Except Err (List CoarseSeq × Bytes)
  | 0, s, seqs => .ok (seqs, s)
  | n + 1, s, seqs =>
    match read32 s with
    | .error e => .error e
    | .ok (orgSeqId, s1) =>
      match read16 s1 with
      | .error e => .error e
      | .ok (coarseStart, s2) =>
        match read16 s2 with
        | .error e => .error e
        | .ok (coarseEnd, s3) =>
          let newLink := NewLinkToCompressed orgSeqId coarseStart coarseEnd
          match seqs[coarseSeqId]? with
          | none => .error .panic
          | some seq =>
            readLinkRecs coarseSeqId n s3 (seqs.set coarseSeqId (seq.addLink [newLink]))

/-- The outer loop of `CoarseDB.readLinks` on the unframed payload.  Every
round consumes four bytes, so `fuel` above the length of the payload is
never used up. -/
def readLinksLoop : Nat → Nat → Bytes → List CoarseSeq → Except Err (List CoarseSeq)
  | 0, _, _, _ => .error .panic
  | fuel + 1, coarseSeqId, s, seqs =>
    match read32 s with
    | .error _ => .ok seqs
    | .ok (cnt, s1) =>
      match readLinkRecs coarseSeqId cnt.toNat s1 seqs with
      | .error e => .error e
      | .ok (seqs1, s2) => readLinksLoop fuel (coarseSeqId + 1) s2 seqs1

/-- `CoarseDB.readLinks` on the unframed payload. -/
def readLinksPayload (payload : Bytes) (seqs : List CoarseSeq) : Except Err (List CoarseSeq) :=
  readLinksLoop (payload.length + 1) 0 payload seqs

/-- `CoarseDB.readLinks`. -/
def CoarseDB.readLinks (x : Extern) (coarsedb : CoarseDB) : Except Err CoarseDB :=
  match x.gunzip coarsedb.FileLinks with
  | .error e => .error e
  | .ok payload =>
    match readLinksPayload payload coarsedb.Seqs with
    | .error e => .error e
    | .ok seqs => .ok { coarsedb with Seqs := seqs }

/-- The bytes of one link in `saveLinks`. -/
def linkBytes (link : LinkToCompressed) : Bytes :=
  be32 link.OrgSeqId ++ be16 link.CoarseStart ++ be16 link.CoarseEnd

/-- The bytes `saveLinks` hands to the gzip writer for one coarse
sequence: the count, kept in an `int32`, then the links. -/
def seqLinksBytes (seq : CoarseSeq) : Bytes :=
  be32 (wrap32 seq.Links.length) ++ seq.Links.flatMap linkBytes

/-- The unframed payload of `CoarseDB.saveLinks`. -/
def saveLinksPayload (seqs : List CoarseSeq) : Bytes := seqs.flatMap seqLinksBytes

/-- `CoarseDB.saveLinks`. -/
def CoarseDB.saveLinks (x : Extern) (coarsedb : CoarseDB) : CoarseDB :=
  { coarsedb with FileLinks := coarsedb.FileLinks ++ x.gzip (saveLinksPayload coarsedb.Seqs) }

/-- `CoarseDB.saveLinksPlain`. -/
def CoarseDB.saveLinksPlain (x : Extern) (coarsedb : CoarseDB) : CoarseDB :=
  { coarsedb with
    plainLinks := coarsedb.plainLinks ++ coarsedb.Seqs.flatMap (fun seq =>
      x.csvWrite (seq.Links.flatMap (fun link =>
        [fmtInt link.OrgSeqId, fmtInt link.CoarseStart, fmtInt link.CoarseEnd]))) }

/-! ## `coarse.go`: opening, `load`, `Save` -/

/-- `CoarseDB.load`. -/
def CoarseDB.load (x : Extern) (coarsedb : CoarseDB) : Except Err CoarseDB :=
  match coarsedb.readFasta x with
  | .error e => .error e
  | .ok db1 =>
    match db1.readSeeds x with
    | .error e => .error e
    | .ok db2 =>
      match db2.readLinks x with
      | .error e => .error e
      | .ok db3 =>
        let db4 := { db3 with FileSeeds := [], FileLinks := [], FileLinksIndex := [] }
        if db4.plain then .ok { db4 with plainSeeds := [], plainLinks := [] }
        else .ok db4

/-- `CoarseDB.Save`.  The tasks it starts write to different files, so
they are run one after the other here. -/
def CoarseDB.Save (x : Extern) (coarsedb : CoarseDB) : Except Err CoarseDB :=
  match coarsedb.saveFasta with
  | .error e => .error e
  | .ok db1 =>
    let db2 := db1.saveLinks x
    match (if !db2.readOnly then db2.saveSeeds x else .ok db2) with
    | .error e => .error e
    | .ok db3 =>
      if db3.plain then
        let db4 := db3.saveLinksPlain x
        if !db4.readOnly then db4.saveSeedsPlain x else .ok db4
      else .ok db3

/-- Modelled from the spec: the struct `DB` is declared outside the source
files.  Besides its settings it stands for the directory of the database:
the content of each file of the coarse database on disk. -/
structure DB where
  MapSeedSize : Int
  LowComplexityWindow : Int
  ReadOnly : Bool
  SavePlain : Bool
  coarseFasta : Bytes
  coarseSeeds : Bytes
  coarseLinks : Bytes
  coarseLinksIndex : Bytes
  coarsePlainLinks : Bytes
  coarsePlainSeeds : Bytes
  deriving DecidableEq, Repr

/-- Modelled from the spec: `DB.openWriteFile` is not among the source
files; in append mode the file is opened with the content it has, in the
other mode it starts empty. -/
def openWriteFile (appnd : Bool) (onDisk : Bytes) : Bytes := if appnd then onDisk else []

/-- `NewWriteCoarseDB`. -/
def NewWriteCoarseDB (x : Extern) (appnd : Bool) (db : DB) : Except Err CoarseDB :=
  let coarsedb : CoarseDB :=
    { Seqs := [], seqsRead := 0,
      Seeds := x.NewSeeds db.MapSeedSize db.LowComplexityWindow,
      FileFasta := openWriteFile appnd db.coarseFasta,
      FileSeeds := openWriteFile appnd db.coarseSeeds,
      FileLinks := openWriteFile appnd db.coarseLinks,
      FileLinksIndex := openWriteFile appnd db.coarseLinksIndex,
      readOnly := db.ReadOnly, plain := db.SavePlain,
      plainLinks := if db.SavePlain then openWriteFile appnd db.coarsePlainLinks else [],
      plainSeeds := if db.SavePlain then openWriteFile appnd db.coarsePlainSeeds else [] }
  if appnd then coarsedb.load x else .ok coarsedb

/-! ## The claims in the words of the specification -/

/-- The spec's `upper`: the letters `a` to `z` become `A` to `Z`. -/
def specUpper (s : Bytes) : Bytes :=
  s.map (fun c => if 0x61 ≤ c ∧ c ≤ 0x7A then c - 0x20 else c)

/-- The spec's `strip('*', _)`. -/
def specStrip (s : Bytes) : Bytes := s.filter (fun c => decide (c ≠ 0x2A))

/-! ## An environment for the examples -/

/-- The lines of a text, without their line feeds. -/
def splitLines : Bytes → List Bytes
  | [] => [[]]
  | c :: cs =>
    if c = 0x0A then [] :: splitLines cs
    else
      match splitLines cs with
      | [] => [[c]]
      | l :: ls => (c :: l) :: ls

/-- One line for `csv.Reader.Read` from a `bufio.Reader` of 4096 bytes on
`file`: `buf` are the bytes the reader holds, `pos` is the offset the file
is at, `acc` is the start of the line taken out of a buffer that was full.
The line feed is looked for in the buffer, and the file is read only when
the buffer has none: then as many bytes as the buffer has room for.  At
the end of the file what is left is the last line; nothing left is
`io.EOF`. -/
def exampleReadLine (file : Bytes) : Nat → Bytes → Nat → Bytes → Except Err (Bytes × Bytes)
  | 0, _, _, _ => .error .panic
  | fuel + 1, buf, pos, acc =>
    match buf.span (fun c => c != 0x0A) with
    | (line, _ :: rest) => .ok (acc ++ line, rest)
    | (_, []) =>
      if 4096 ≤ buf.length then exampleReadLine file fuel [] pos (acc ++ buf)
      else
        let chunk := (file.drop pos).take (4096 - buf.length)
        if chunk.isEmpty then
          if (acc ++ buf).isEmpty then .error .ioError else .ok (acc ++ buf, [])
        else exampleReadLine file fuel (buf ++ chunk) (pos + chunk.length) acc

/-- A reader for the entries `saveFasta` writes: a line starting with `>`
opens an entry, the lines up to the next such line are its residues. -/
def exampleFastaRead (file : Bytes) : Except Err (List (Bytes × Bytes)) :=
  let step := fun (acc : List (Bytes × Bytes)) (line : Bytes) =>
    match line with
    | 0x3E :: name => (name.dropWhile (fun c => decide (c = 0x20)), []) :: acc
    | _ =>
      match acc with
      | [] => []
      | (n, r) :: rest => (n, r ++ line) :: rest
  .ok ((splitLines file).foldl step []).reverse

/-- A seed table for seeds of size 0: one bucket, which is empty. -/
def emptySeeds : Seeds :=
  { Locs := [[]], SeedSize := 0, LowComplexityWindow := 0, powers := [1] }

/-- An instance of `Extern` on which the definitions can be evaluated: no
case mapping above U+007F, no seeds, gzip framing that adds nothing, CSV
records without quoting that end in a line feed and are read through a
buffer of 4096 bytes, seeks that reach the offset asked for, and a
`Decompress` that copies the coarse spans. -/
def exampleExtern : Extern :=
  { caseTab := fun r => r
    seedsAdd := fun seeds _ _ => seeds
    NewSeeds := fun _ _ => emptySeeds
    unhashKmer := fun _ _ => []
    gzip := fun payload => payload
    gunzip := fun file => .ok file
    fastaRead := exampleFastaRead
    csvWrite := fun record => (List.intersperse [0x2C] record).flatten ++ [0x0A]
    csvRead := fun buf file pos =>
      match exampleReadLine file (2 * file.length + 3) buf pos [] with
      | .error e => .error e
      | .ok (line, buffered) =>
        .ok (splitLines (line.map (fun c => if c = 0x2C then 0x0A else c)), buffered)
    seek := fun off => if off < 0 then .error .ioError else .ok off
    Decompress := fun coarsedb cseq =>
      .ok (NewOriginalSeq (fun r => r) cseq.Id cseq.Name
        (cseq.Links.flatMap (fun link =>
          match coarsedb.Seqs[link.CoarseSeqId.toNat]? with
          | some seq => slice seq.Residues link.CoarseStart link.CoarseEnd
          | none => []))) }

/-- A coarse database opened for writing that holds nothing yet. -/
def emptyCoarseDB : CoarseDB :=
  { Seqs := [], seqsRead := 0, Seeds := emptySeeds,
    FileFasta := [], FileSeeds := [], FileLinks := [], FileLinksIndex := [],
    readOnly := false, plain := false,
    plainLinks := [], plainSeeds := [] }

/-! ## Values that fit the fields they are stored in -/

/-- The fields of a link hold an `int32` and two `int16` values. -/
def LinkToCompressed.typed (l : LinkToCompressed) : Prop :=
  (-2147483648 ≤ l.OrgSeqId ∧ l.OrgSeqId < 2147483648)
    ∧ (-32768 ≤ l.CoarseStart ∧ l.CoarseStart < 32768)
    ∧ (-32768 ≤ l.CoarseEnd ∧ l.CoarseEnd < 32768)

instance (l : LinkToCompressed) : Decidable l.typed := by
  unfold LinkToCompressed.typed; infer_instance

/-- The same coarse sequence with an empty chain of links. -/
def clearLinks (seq : CoarseSeq) : CoarseSeq := { seq with Links := [] }

/-- A coarse sequence without residues whose chain holds `n` links, all
of them `(0, 0, 0)`. -/
def zeroLinksSeq (n : Nat) : CoarseSeq :=
  { Name := [], Residues := [], Offset := 0, Id := 0,
    Links := List.replicate n (NewLinkToCompressed 0 0 0), linkLock := true }

/-- The spec's "deduplicated list, preserving first-seen order": every
identifier once, at the place where it first occurs. -/
def specFirstSeen : List Int → List Int
  | [] => []
  | a :: more => a :: (specFirstSeen more).filter (fun b => decide (b ≠ a))

/-- A coarse database of two sequences on disk: the links section of
sequence 0 is empty, that of sequence 1 starts at offset 4 and lists the
links `(42, 0, 10)` and `(42, 10, 20)`. -/
def exampleReadCoarseDB : CoarseDB :=
  { emptyCoarseDB with
    Seqs := [NewCoarseSeq (fun r => r) 0 [] [0x41, 0x42, 0x43, 0x44],
             NewCoarseSeq (fun r => r) 1 [] [0x45, 0x46]]
    FileLinksIndex := be64 0 ++ be64 4
    FileLinks := be32 0 ++ (be32 2 ++ (linkBytes (NewLinkToCompressed 42 0 10)
      ++ linkBytes (NewLinkToCompressed 42 10 20))) }

/-- A compressed database in which every index entry up to number 42 is
offset 0, where the record `s,0,0,2,` starts. -/
def exampleCompressedDB : CompressedDB :=
  { File := [0x73, 0x2C, 0x30, 0x2C, 0x30, 0x2C, 0x32, 0x2C, 0x0A]
    Index := List.replicate 344 0 }

/-- The offsets at which records laid end to end begin, the first one
beginning at `base`. -/
def recordOffsets (base : Nat) : List Bytes → List Nat
  | [] => []
  | r :: more => base :: recordOffsets (base + r.length) more

/-- The bytes the writer sends to the data file for each value received. -/
def writerRecords (x : Extern) (sent : List CompressedSeq) : List Bytes :=
  sent.map (fun cseq => x.csvWrite (writerRecord cseq))

/-- Two compressed sequences: `s` with the link `(0, 0, 2)` and an empty
diff, and `t` without links. -/
def exampleSent : List CompressedSeq :=
  [{ Id := 0, Name := [0x73],
     Links := [{ CoarseSeqId := 0, CoarseStart := 0, CoarseEnd := 2, Diff := [] }] },
   { Id := 1, Name := [0x74], Links := [] }]

/-- A compressed database whose only record is `s,x,2,3,d`: the field for
`coarseSeqId` is not a number. -/
def exampleMalformedDB : CompressedDB :=
  { File := [0x73, 0x2C, 0x78, 0x2C, 0x32, 0x2C, 0x33, 0x2C, 0x64, 0x0A]
    Index := be64 0 }

/-- The compressed sequence `s` with the one link `(1, 2, 3, "d")`. -/
def exampleLinked : CompressedSeq :=
  { Id := 5, Name := [0x73],
    Links := [{ CoarseSeqId := 1, CoarseStart := 2, CoarseEnd := 3, Diff := [0x64] }] }

/-- The directory of a coarse database saved with one sequence, `AB`,
which has no links; nothing was written to `coarse.links.index`. -/
def exampleSavedDir : DB :=
  { MapSeedSize := 0, LowComplexityWindow := 0, ReadOnly := false, SavePlain := false,
    coarseFasta := fastaEntry 0 [0x41, 0x42],
    coarseSeeds := [],
    coarseLinks := be32 0,
    coarseLinksIndex := [],
    coarsePlainLinks := [], coarsePlainSeeds := [] }

/-- The three integers of a link to a coarse sequence hold `int32`
values. -/
def LinkToCoarse.typed (l : LinkToCoarse) : Prop :=
  (-2147483648 ≤ l.CoarseSeqId ∧ l.CoarseSeqId < 2147483648)
    ∧ (-2147483648 ≤ l.CoarseStart ∧ l.CoarseStart < 2147483648)
    ∧ (-2147483648 ≤ l.CoarseEnd ∧ l.CoarseEnd < 2147483648)

instance (l : LinkToCoarse) : Decidable l.typed := by
  unfold LinkToCoarse.typed; infer_instance

/-! ## `seq.go`: `IsLowComplexity` -/

/-- The loop of `IsLowComplexity` over the bytes `residues[i]` for `i` from
`start` up to `end`, with the values of `repeats` and `last` on entry. -/
def lowComplexityLoop (window : Int) : Bytes → Int → Nat → Bool
  | [], _, _ => false
  | r :: more, repeats, last =>
    if r = last then
      if wrap64 (repeats + 1) ≥ window then true
      else lowComplexityLoop window more (wrap64 (repeats + 1)) last
    else lowComplexityLoop window more repeats r

/-- The bounds `start` and `end` of the loop of `IsLowComplexity`. -/
def lowComplexityBounds (residues : Bytes) (offset window : Int) : Int × Int :=
  (max 0 (wrap64 (offset - window)), min (residues.length : Int) (wrap64 (offset + window)))

/-- `IsLowComplexity`. -/
def IsLowComplexity (residues : Bytes) (offset window : Int) : Bool :=
  let start := (lowComplexityBounds residues offset window).1
  let stop := (lowComplexityBounds residues offset window).2
  lowComplexityLoop window (slice residues start stop) 0 0

/-- The spec's "contains a run of at least `w` identical bytes": at some
place of `s`, `w` consecutive bytes are all the byte found there. -/
def specHasRun (s : Bytes) (w : Nat) : Bool :=
  (List.range (s.length + 1 - w)).any (fun i =>
    match s[i]? with
    | some b => ((s.drop i).take w).all (fun c => decide (c = b))
    | none => false)

/-- The spec's clamped slice `s[max(0, o-w) : min(len(s), o+w)]`. -/
def specWindow (s : Bytes) (o w : Int) : Bytes :=
  slice s (max 0 (o - w)) (min (s.length : Int) (o + w))

/-! ## Sequences made by `newSeq` and `newSubSequence` -/

/-- The sequences built by `newSeq` from ASCII residues, and by
`newSubSequence` from a sequence built so. -/
inductive BuiltFromAscii (caseTab : Nat → Nat) : sequence → Prop
  | ofNewSeq (id : Int) (name residues : Bytes) (h : ∀ c ∈ residues, c < 0x80) :
      BuiltFromAscii caseTab (newSeq caseTab id name residues)
  | ofSubSequence (parent s : sequence) (start stop : Int)
      (hp : BuiltFromAscii caseTab parent)
      (hs : parent.newSubSequence caseTab start stop = .ok s) :
      BuiltFromAscii caseTab s

/-- Residues as `newSeq` leaves ASCII input: ASCII bytes, none of them `*`
or a small letter. -/
def normalResidues (s : Bytes) : Prop :=
  ∀ b ∈ s, b < 0x80 ∧ b ≠ 0x2A ∧ ¬ (0x61 ≤ b ∧ b ≤ 0x7A)

/-! ## `cmd/mica-psearch`: expanding the hits of the coarse search -/

/-- The errors `expandBlastHits` and `expandDmndHits` return, and the
panic that passes through them. -/
inductive HitsErr where
  | parse                    -- the output of the search tool could not be read
  | shortLine                -- a line of diamond output with fewer than 12 fields
  | expandFailed (e : Err)   -- `Expand` returned an error on a hit
  | panic                    -- `Expand` panicked: no branch of the caller is taken
  deriving DecidableEq, Repr

/-- One `Hsp` of the decoded BLAST output; `E` is the type of e-values
(`float64` in the source). -/
structure Hsp (E : Type) where
  HitFrom : Int
  HitTo : Int
  Evalue : E

/-- One `Hit` of the decoded BLAST output. -/
structure Hit (E : Type) where
  Accession : Int
  Hsps : List (Hsp E)

/-- The struct `blast` the XML output is decoded into; it is declared
outside the source files and has the fields the loop reads. -/
structure blast (E : Type) where
  Hits : List (Hit E)

/-- What the two functions call but do not define. -/
structure SearchExtern (E : Type) where
  /-- `db.CoarseDB.Expand(db.ComDB, coarseId, hitFrom, hitTo)`, the variant
  with a range, which is not among the source files.  `.error .panic` is a
  call that panics, every other `.error e` a call that returns `err`. -/
  Expand : Int → Int → Int → Except Err (List OriginalSeq)
  /-- The comparison `a > b` of two `float64`. -/
  gt : E → E → Bool
  /-- The flag `flagCoarseEval`. -/
  flagCoarseEval : E
  /-- `xml.NewDecoder(blastOut).Decode(&results)`. -/
  xmlDecode : Bytes → Except Err (blast E)
  /-- The lines `bufio.Scanner` yields until `Scan` returns false. -/
  scanLines : Bytes → List Bytes
  /-- `strings.Fields`. -/
  Fields : Bytes → List Bytes
  /-- `strconv.ParseFloat(s, 64)`; `none` stands for a non-nil error. -/
  ParseFloat : Bytes → Option E

/-- The loop `for _, oseq := range someOseqs` of both functions: `used` is
the set of ids in the map, `oseqs` the slice so far. -/
def addOseqs : List OriginalSeq → List Int × List OriginalSeq → List Int × List OriginalSeq
  | [], st => st
  | oseq :: more, (used, oseqs) =>
    if used.contains oseq.Id then addOseqs more (used, oseqs)
    else addOseqs more (oseq.Id :: used, oseqs ++ [oseq])

/-- The loop of `expandBlastHits` over the `Hsps` of one hit.  An error
`Expand` returns is logged and the loop goes on; a panic in `Expand` ends
the loop and the function. -/
def expandHsps {E : Type} (c : SearchExtern E) (hit : Hit E) :
    List (Hsp E) → List Int × List OriginalSeq → Except HitsErr (List Int × List OriginalSeq)
  | [], st => .ok st
  | hsp :: more, st =>
    match c.Expand hit.Accession hsp.HitFrom hsp.HitTo with
    | .error .panic => .error .panic
    | .error _ => expandHsps c hit more st
    | .ok someOseqs =>
      if c.gt hsp.Evalue c.flagCoarseEval then expandHsps c hit more st
      else expandHsps c hit more (addOseqs someOseqs st)

/-- The loop of `expandBlastHits` over the hits. -/
def expandHits {E : Type} (c : SearchExtern E) :
    List (Hit E) → List Int × List OriginalSeq → Except HitsErr (List Int × List OriginalSeq)
  | [], st => .ok st
  | hit :: more, st =>
    match expandHsps c hit hit.Hsps st with
    | .error e => .error e
    | .ok st1 => expandHits c more st1

/-- `expandBlastHits` once the output is decoded. -/
def expandBlastResults {E : Type} (c : SearchExtern E) (results : blast E) :
    Except HitsErr (List OriginalSeq) :=
  match expandHits c results.Hits ([], []) with
  | .error e => .error e
  | .ok st => .ok st.2

/-- `expandBlastHits`. -/
def expandBlastHits {E : Type} (c : SearchExtern E) (blastOut : Bytes) :
    Except HitsErr (List OriginalSeq) :=
  match c.xmlDecode blastOut with
  | .error _ => .error .parse
  | .ok results => expandBlastResults c results

/-- The body of the loop of `expandDmndHits` up to the call of `Expand`:
the fields `subjectId`, `subjectStart`, `subjectEnd` and `eVal` of a
line. -/
def dmndTuple {E : Type} (c : SearchExtern E) (line : Bytes) :
    Except HitsErr (Int × Int × Int × E) :=
  let splitLine := c.Fields line
  if splitLine.length < 12 then .error .shortLine
  else
    match Atoi (splitLine.getD 1 []) with
    | none => .error .parse
    | some coarseID =>
      match Atoi (splitLine.getD 8 []) with
      | none => .error .parse
      | some hitFrom =>
        match Atoi (splitLine.getD 9 []) with
        | none => .error .parse
        | some hitTo =>
          match c.ParseFloat (splitLine.getD 10 []) with
          | none => .error .parse
          | some eval => .ok (coarseID, hitFrom, hitTo, eval)

/-- The body of the loop of `expandDmndHits` for one line.  An error
`Expand` returns is returned; a panic in `Expand` passes through. -/
def expandDmndLine {E : Type} (c : SearchExtern E) (line : Bytes)
    (st : List Int × List OriginalSeq) : Except HitsErr (List Int × List OriginalSeq) :=
  match dmndTuple c line with
  | .error e => .error e
  | .ok (coarseID, hitFrom, hitTo, eval) =>
    match c.Expand coarseID hitFrom hitTo with
    | .error .panic => .error .panic
    | .error e => .error (.expandFailed e)
    | .ok someOseqs =>
      if c.gt eval c.flagCoarseEval then .ok st
      else .ok (addOseqs someOseqs st)

/-- The loop of `expandDmndHits` over the lines scanned. -/
def expandDmndLines {E : Type} (c : SearchExtern E) :
    List Bytes → List Int × List OriginalSeq → Except HitsErr (List Int × List OriginalSeq)
  | [], st => .ok st
  | line :: more, st =>
    match expandDmndLine c line st with
    | .error e => .error e
    | .ok st1 => expandDmndLines c more st1

/-- `expandDmndHits` once the output is cut into lines. -/
def expandDmndStream {E : Type} (c : SearchExtern E) (lines : List Bytes) :
    Except HitsErr (List OriginalSeq) :=
  match expandDmndLines c lines ([], []) with
  | .error e => .error e
  | .ok st => .ok st.2

/-- `expandDmndHits`. -/
def expandDmndHits {E : Type} (c : SearchExtern E) (dmndOut : Bytes) :
    Except HitsErr (List OriginalSeq) :=
  expandDmndStream c (c.scanLines dmndOut)

/-- Whether a line of diamond output is a tuple whose e-value exceeds the
threshold. -/
def dmndAbove {E : Type} (c : SearchExtern E) (line : Bytes) : Bool :=
  match dmndTuple c line with
  | .ok (_, _, _, eval) => c.gt eval c.flagCoarseEval
  | .error _ => false

/-- An original sequence with the residue `A` and the given id. -/
def exampleOriginal (id : Int) : OriginalSeq :=
  { Name := [], Residues := [0x41], Offset := 0, Id := id }

/-- A stand-in for the XML decoder: every four numbers of the buffer are
one hit with one `Hsp`: accession, `HitFrom`, `HitTo` and e-value. -/
def exampleDecode : Bytes → List (Hit Int)
  | acc :: hitFrom :: hitTo :: evalue :: more =>
    { Accession := acc, Hsps := [{ HitFrom := hitFrom, HitTo := hitTo, Evalue := evalue }] }
      :: exampleDecode more
  | _ => []

/-- An instance of `SearchExtern` on which the two functions can be
evaluated.  E-values are whole numbers and the threshold is 5.  `Expand`
fails with a decompression error on coarse sequence 3 and with an I/O
error on coarse sequence 4; every other coarse sequence `n` expands to the
originals 42 and `n`.  Lines end in a line feed, fields are set apart by
single blanks. -/
def exampleSearch : SearchExtern Int :=
  { Expand := fun coarseId _ _ =>
      if coarseId = 3 then .error .decompress
      else if coarseId = 4 then .error .ioError
      else .ok [exampleOriginal 42, exampleOriginal coarseId]
    gt := fun a b => decide (a > b)
    flagCoarseEval := 5
    xmlDecode := fun buf => .ok { Hits := exampleDecode buf }
    scanLines := fun buf => (splitLines buf).filter (fun l => !l.isEmpty)
    Fields := fun line =>
      (splitLines (line.map (fun c => if c = 0x20 then 0x0A else c))).filter
        (fun f => !f.isEmpty)
    ParseFloat := Atoi }

/-- The line `q N 90 10 0 0 1 10 1 10 E 50` of diamond output for a
subject `N` and an e-value `E` of one digit each. -/
def exampleScanned (subject evalue : Nat) : Bytes :=
  [0x71, 0x20, 0x30 + subject, 0x20, 0x39, 0x30, 0x20, 0x31, 0x30, 0x20, 0x30, 0x20, 0x30, 0x20,
   0x31, 0x20, 0x31, 0x30, 0x20, 0x31, 0x20, 0x31, 0x30, 0x20, 0x30 + evalue, 0x20, 0x35, 0x30]

/-- The same line with its line feed, as diamond writes it. -/
def exampleLine (subject evalue : Nat) : Bytes := exampleScanned subject evalue ++ [0x0A]

/-- What the loops of the two functions keep true of the map `used` and
the slice `oseqs`: no id occurs twice in `oseqs`, and every id of `oseqs`
is set in `used`. -/
def usedCovers (st : List Int × List OriginalSeq) : Prop :=
  (st.2.map (fun o => o.Id)).Nodup ∧ ∀ o ∈ st.2, o.Id ∈ st.1

/-- The coarse database of `exampleReadCoarseDB` with another section for
sequence 1: the links `(42, 0, 10)` and `(50, 0, 1)`.  The compressed
database of the examples has no index entry for the original 50. -/
def exampleBrokenCoarseDB : CoarseDB :=
  { exampleReadCoarseDB with
    FileLinks := be32 0 ++ (be32 2 ++ ([NewLinkToCompressed 42 0 10].flatMap linkBytes
      ++ (linkBytes (NewLinkToCompressed 50 0 1) ++ []))) }

/-! ## `seq.go`: `SeqIdentity` -/

/-- The loop `for i, r1 := range seq1` of `SeqIdentity`: `same` is an
`int` (64 bits), `seq2[i]` past the end of `seq2` is a run-time panic.
The two slices are walked in step. -/
def sameLoop : Bytes → Bytes → Int → Except Err Int
  | [], _, same => .ok same
  | _ :: _, [], _ => .error .panic
  | r1 :: more1, r2 :: more2, same =>
    sameLoop more1 more2 (if r1 = r2 then wrap64 (same + 1) else same)

/-- `SeqIdentity`; `log.Panicf` ends in a panic.  The product is taken in
an `int`, the quotient of two values that are not negative is the same
under every rounding. -/
def SeqIdentity (seq1 seq2 : Bytes) : Except Err Int :=
  if seq1.length ≠ seq2.length then .error .panic
  else if seq1.length = 0 ∧ seq2.length = 0 then .ok 0
  else
    match sameLoop seq1 seq2 0 with
    | .error e => .error e
    | .ok same => .ok (Int.tdiv (wrap64 (same * 100)) seq1.length)

/-- The number of positions `i` with `a[i] = b[i]`, as the specification
words it. -/
def specMatches (a b : Bytes) : Nat :=
  ((List.range a.length).filter (fun i => decide (a[i]? = b[i]?))).length

/-! ## Link chains under `AddLink` -/

/-- A run of calls `rseq.AddLink(l)`, one for every link of the list in
turn; each `l` is a link of its own whose `Next` is `nil`. -/
def AddLinkCalls : CoarseSeq → List LinkToCompressed → Except Err CoarseSeq
  | rseq, [] => .ok rseq
  | rseq, l :: more =>
    match rseq.AddLink [l] with
    | .error e => .error e
    | .ok rseq1 => AddLinkCalls rseq1 more

/-! ## The seeds file in the words of the specification -/

/-- The fields of a seed location have the width of their types. -/
def SeedLoc.typed (l : SeedLoc) : Prop :=
  -2147483648 ≤ l.SeqInd ∧ l.SeqInd < 2147483648 ∧ -32768 ≤ l.ResInd ∧ l.ResInd < 32768

instance (l : SeedLoc) : Decidable l.typed := by
  unfold SeedLoc.typed; infer_instance

/-- The payload of `coarse.seeds` as the specification describes it, for
the buckets `buckets`, the first of which is bucket `h`: for each bucket
that is not empty, in ascending order, `i32 h`, `i32 count` and the `count`
records `(i32 seqInd, i16 resInd)` in chain order. -/
def specSeedsPayload : List (List SeedLoc) → Nat → Bytes
  | [], _ => []
  | chain :: more, h =>
    (if chain.isEmpty then []
      else be32 h ++ be32 chain.length ++ chain.flatMap seedLocBytes)
      ++ specSeedsPayload more (h + 1)

/-- A seed table of one bucket (`k = 0`) whose chain holds `n` locations,
all of them `(0, 0)`. -/
def zeroSeeds (n : Nat) : Seeds :=
  { Locs := [List.replicate n (NewSeedLoc 0 0)], SeedSize := 0, LowComplexityWindow := 0,
    powers := [1] }

/-- A seed table for `A = 28` and `k = 7` of `n + 1` buckets: the last
bucket holds the location `(0, 0)`, the others are empty.  It is the table
of `28^7` buckets for `n + 1 = 13492928512`. -/
def lastBucketSeeds (n : Nat) : Seeds :=
  { Locs := List.replicate n [] ++ [[NewSeedLoc 0 0]], SeedSize := 7, LowComplexityWindow := 0,
    powers := [1, 28, 784, 21952, 614656, 17210368, 481890304, ((n + 1 : Nat) : Int)] }

/-- A seed table for `A = 2` and `k = 2`: bucket 1 holds the locations
`(3, 1)` and `(4, 2)`, bucket 3 the location `(5, 0)`. -/
def exampleSeeds : Seeds :=
  { Locs := [[], [NewSeedLoc 3 1, NewSeedLoc 4 2], [], [NewSeedLoc 5 0]],
    SeedSize := 2, LowComplexityWindow := 0, powers := [1, 2, 4] }

/-- A compressed database just opened that holds three records without
links, `a`, `b` and `c`, at the offsets 0, 2 and 4. -/
def exampleThreeRecords : CompressedDB :=
  { File := [0x61, 0x0A, 0x62, 0x0A, 0x63, 0x0A], Index := be64 0 ++ (be64 2 ++ be64 4) }

/-- A coarse database whose only section lists the links `(0, 0, 1)`,
`(2, 0, 1)` and `(0, 1, 2)`: two originals, the first of them twice. -/
def exampleTwoOriginals : CoarseDB :=
  { emptyCoarseDB with
    FileLinksIndex := be64 0
    FileLinks := be32 3 ++ ([NewLinkToCompressed 0 0 1, NewLinkToCompressed 2 0 1,
      NewLinkToCompressed 0 1 2].flatMap linkBytes ++ []) }

/-! # Theorems -/

/-! ## `newSeq` on ASCII input -/

theorem stringsToUpper_ascii (caseTab : Nat → Nat) (s : Bytes) (h : ∀ c ∈ s, c < 0x80) :
    stringsToUpper caseTab s = specUpper s := by
  have hall : s.all (fun c => decide (c < 0x80)) = true := by
    simpa [List.all_eq_true] using h
  simp [stringsToUpper, specUpper, hall]

theorem strip_upper_comm (s : Bytes) : stripStars (specUpper s) = specUpper (specStrip s) := by
  unfold stripStars specUpper specStrip
  rw [List.filter_map]
  congr 1
  apply List.filter_congr
  intro c _
  simp only [Function.comp_apply]
  split_ifs with h1
  · have h2 : c ≠ 0x2A := by omega
    have h3 : c - 0x20 ≠ 0x2A := by omega
    simp [h2, h3]
  · rfl

theorem newSeq_ascii (caseTab : Nat → Nat) (id : Int) (name residues : Bytes)
    (h : ∀ c ∈ residues, c < 0x80) :
    newSeq caseTab id name residues
      = { Name := name, Residues := specUpper (specStrip residues), Offset := 0, Id := id } := by
  simp [newSeq, stringsToUpper_ascii caseTab residues h, strip_upper_comm]

theorem encodeRune_ne_ff (r : Nat) : ∀ b ∈ encodeRune r, b ≠ 0xFF := by
  intro b hb
  unfold encodeRune at hb
  split_ifs at hb <;> simp at hb <;> omega

/-! ## C1: `CoarseDB.Add` -/

/-- C1 (amended): for an input of ASCII bytes, `Add` returns the number
of sequences held before as id, the database then holds one sequence more,
and `CoarseSeqGet(id)` is the returned sequence, whose residues are the
input upper-cased with every `*` removed. -/
theorem add_dense_id_ascii (x : Extern) (coarsedb : CoarseDB) (oseq : Bytes)
    (hascii : ∀ c ∈ oseq, c < 0x80) :
    (coarsedb.Add x oseq).1.1 = (coarsedb.Seqs.length : Int)
      ∧ ((coarsedb.Add x oseq).2.Seqs.length : Int) = (coarsedb.Add x oseq).1.1 + 1
      ∧ (coarsedb.Add x oseq).2.CoarseSeqGet (coarsedb.Add x oseq).1.1
          = .ok (coarsedb.Add x oseq).1.2
      ∧ (coarsedb.Add x oseq).1.2.Residues = specUpper (specStrip oseq) := by
  refine ⟨rfl, ?_, ?_, ?_⟩
  · simp [CoarseDB.Add]
  · simp [CoarseDB.Add, CoarseDB.CoarseSeqGet]
  · simp [CoarseDB.Add, NewCoarseSeq, newSeq_ascii x.caseTab _ _ oseq hascii]

/-- The amended C1 at the input `a*bC` on an empty database: id 0 and the
residues `ABC`. -/
theorem add_dense_id_ascii_witness :
    (∀ c ∈ [0x61, 0x2A, 0x62, 0x43], c < 0x80)
      ∧ (emptyCoarseDB.Add exampleExtern [0x61, 0x2A, 0x62, 0x43]).1.1 = 0
      ∧ (emptyCoarseDB.Add exampleExtern [0x61, 0x2A, 0x62, 0x43]).1.2.Residues
          = [0x41, 0x42, 0x43] :=
  ⟨by decide,
   (add_dense_id_ascii exampleExtern emptyCoarseDB [0x61, 0x2A, 0x62, 0x43] (by decide)).1,
   (add_dense_id_ascii exampleExtern emptyCoarseDB [0x61, 0x2A, 0x62, 0x43]
      (by decide)).2.2.2⟩

/-- C1 (counterexample): the input is the two bytes `0xC3 0xA9`, the
letter U+00E9 in UTF-8, neither of them an ASCII letter or `*`, so that
the claim asks for these two bytes as residues.  In every environment the
residues of `CoarseSeqGet(id)` are `0xC3 0x89`, the letter U+00C9:
`strings.ToUpper` upper-cases runes, not bytes. -/
theorem add_non_ascii_counterexample :
    (∀ x : Extern, ∃ s : CoarseSeq,
        (emptyCoarseDB.Add x [0xC3, 0xA9]).2.CoarseSeqGet
            (emptyCoarseDB.Add x [0xC3, 0xA9]).1.1 = .ok s
          ∧ s.Residues = [0xC3, 0x89])
      ∧ specUpper (specStrip [0xC3, 0xA9]) = [0xC3, 0xA9] := by
  refine ⟨fun x => ⟨NewCoarseSeq x.caseTab 0 [] [0xC3, 0xA9], ?_, ?_⟩, by decide⟩
  · simp [CoarseDB.Add, CoarseDB.CoarseSeqGet, emptyCoarseDB]
  · simp [NewCoarseSeq, newSeq, stringsToUpper, stringsMap, decodeRune, isCont, unicodeToUpper,
      encodeRune, stripStars]

/-- A byte that is not UTF-8 comes out as U+FFFD or its image, whatever
the case table: after `a`, `0xFF` the residues are never `A`, `0xFF`. -/
theorem add_invalid_utf8 (x : Extern) :
    (NewCoarseSeq x.caseTab 0 [] [0x61, 0xFF]).Residues ≠ specUpper (specStrip [0x61, 0xFF]) := by
  intro hres
  simp [NewCoarseSeq, newSeq, stringsToUpper, stringsMap, decodeRune, unicodeToUpper,
    RuneError, stripStars, specUpper, specStrip, show encodeRune 65 = [65] from rfl] at hres
  have hmem : (0xFF : Nat)
      ∈ List.filter (fun c => !decide (c = 42)) (encodeRune (x.caseTab 65533)) := by
    rw [hres]; simp
  exact encodeRune_ne_ff _ _ (List.mem_filter.mp hmem).1 rfl

/-! ## C10: the offset of a subsequence -/

theorem newSubSequence_offset (caseTab : Nat → Nat) (parent s : sequence) (start stop : Int)
    (h : parent.newSubSequence caseTab start stop = .ok s) : s.Offset = start := by
  unfold sequence.newSubSequence at h
  split_ifs at h
  cases h
  simp [newSeq]

/-- C10 (code at the failing input): the subsequence `[3, 8)` of
`ABCDEFGH` has offset 3, and its subsequence `[1, 3)` has offset 1, not
`3 + 1`. -/
theorem newSubSequence_nested_offset :
    (newSeq exampleExtern.caseTab 0 [] [0x41, 0x42, 0x43, 0x44, 0x45, 0x46, 0x47, 0x48]).newSubSequence
        exampleExtern.caseTab 3 8
      = .ok { Name := [], Residues := [0x44, 0x45, 0x46, 0x47, 0x48], Offset := 3, Id := 0 }
    ∧ sequence.newSubSequence exampleExtern.caseTab
        { Name := [], Residues := [0x44, 0x45, 0x46, 0x47, 0x48], Offset := 3, Id := 0 } 1 3
      = .ok { Name := [], Residues := [0x45, 0x46], Offset := 1, Id := 0 } :=
  ⟨rfl, rfl⟩

/-! ## `encoding/binary`: what is written is what is read -/

theorem beNat_length (n u : Nat) : (beNat n u).length = n := by
  induction n generalizing u with
  | zero => rfl
  | succ n ih => simp [beNat, ih]

theorem beVal_beNat (n u : Nat) : beVal (beNat n u) = u % 256 ^ n := by
  induction n generalizing u with
  | zero => simp [beNat, beVal, Nat.mod_one]
  | succ n ih =>
    have h := ih (u / 256)
    unfold beVal at h ⊢
    simp only [beNat, List.foldl_append, List.foldl_cons, List.foldl_nil, h]
    rw [pow_succ, Nat.mul_comm (256 ^ n) 256, Nat.mod_mul]
    omega

theorem readN_append (a rest : Bytes) : readN a.length (a ++ rest) = .ok (a, rest) := by
  simp [readN]

theorem read16_be16 (v : Int) (rest : Bytes) (h : -32768 ≤ v ∧ v < 32768) :
    read16 (be16 v ++ rest) = .ok (v, rest) := by
  have hr := readN_append (be16 v) rest
  have hl : (be16 v).length = 2 := beNat_length _ _
  rw [hl] at hr
  unfold read16
  rw [hr]
  simp only [be16, beVal_beNat, wrap16]
  norm_num
  split_ifs <;> omega

theorem read32_be32 (v : Int) (rest : Bytes) (h : -2147483648 ≤ v ∧ v < 2147483648) :
    read32 (be32 v ++ rest) = .ok (v, rest) := by
  have hr := readN_append (be32 v) rest
  have hl : (be32 v).length = 4 := beNat_length _ _
  rw [hl] at hr
  unfold read32
  rw [hr]
  simp only [be32, beVal_beNat, wrap32]
  norm_num
  split_ifs <;> omega

theorem read64_be64 (v : Int) (rest : Bytes)
    (h : -9223372036854775808 ≤ v ∧ v < 9223372036854775808) :
    read64 (be64 v ++ rest) = .ok (v, rest) := by
  have hr := readN_append (be64 v) rest
  have hl : (be64 v).length = 8 := beNat_length _ _
  rw [hl] at hr
  unfold read64
  rw [hr]
  simp only [be64, beVal_beNat, wrap64]
  norm_num
  split_ifs <;> omega

theorem wrap32_range (v : Int) : -2147483648 ≤ wrap32 v ∧ wrap32 v < 2147483648 := by
  unfold wrap32
  constructor <;> (simp only []; split_ifs <;> omega)

theorem wrap32_small (v : Int) (h : 0 ≤ v ∧ v < 2147483648) : wrap32 v = v := by
  unfold wrap32
  simp only []
  split_ifs <;> omega

/-! ## C7: `saveLinks` then `readLinks` -/

theorem setLastNext_eq {α : Type} (a : α) (l link : List α) :
    setLastNext (a :: l) link = a :: l ++ link := by
  induction l generalizing a with
  | nil => rfl
  | cons b l ih => simp [setLastNext, ih]

theorem addLink_eq (s : CoarseSeq) (link : List LinkToCompressed) :
    s.addLink link = { s with Links := s.Links ++ link } := by
  unfold CoarseSeq.addLink
  split
  · next h => simp [h]
  · next lk more h => simp [h, setLastNext_eq]

theorem set_of_getElem_some {α : Type} (l : List α) (k : Nat) (a : α) (h : l[k]? = some a) :
    l.set k a = l := by
  induction l generalizing k with
  | nil => rfl
  | cons b l ih =>
    cases k with
    | zero => simp at h; simp [h]
    | succ k => simp at h; simp [ih k h]

theorem linkBytes_read (l : LinkToCompressed) (rest : Bytes) (h : l.typed) :
    read32 (linkBytes l ++ rest) = .ok (l.OrgSeqId, be16 l.CoarseStart ++ be16 l.CoarseEnd ++ rest) := by
  unfold linkBytes
  rw [List.append_assoc, List.append_assoc, read32_be32 _ _ h.1, List.append_assoc]

theorem readLinkRecs_chain (k : Nat) (ls : List LinkToCompressed) (hty : ∀ l ∈ ls, l.typed) :
    ∀ (seqs : List CoarseSeq) (s : CoarseSeq) (rest : Bytes), seqs[k]? = some s →
      readLinkRecs k ls.length (ls.flatMap linkBytes ++ rest) seqs
        = .ok (seqs.set k { s with Links := s.Links ++ ls }, rest) := by
  induction ls with
  | nil =>
    intro seqs s rest hs
    simp [readLinkRecs, set_of_getElem_some seqs k s hs]
  | cons l ls ih =>
    intro seqs s rest hs
    have hl : l.typed := hty l (List.mem_cons_self _ _)
    have hk : k < seqs.length := (List.getElem?_eq_some.mp hs).1
    have hnext : (seqs.set k (s.addLink [l]))[k]? = some (s.addLink [l]) := by
      simp [List.getElem?_set_self, hk]
    have h := ih (fun l' hl' => hty l' (List.mem_cons_of_mem _ hl'))
      (seqs.set k (s.addLink [l])) (s.addLink [l]) rest hnext
    simp only [List.flatMap_cons, List.length_cons, readLinkRecs, List.append_assoc]
    rw [linkBytes_read l _ hl]
    simp only [List.append_assoc, read16_be16 _ _ hl.2.1, read16_be16 _ _ hl.2.2, hs,
      NewLinkToCompressed]
    rw [h]
    simp [addLink_eq, List.set_set]

theorem set_length_append {α : Type} (pre : List α) (a b : α) (post : List α) :
    (pre ++ a :: post).set pre.length b = pre ++ b :: post := by
  induction pre with
  | nil => rfl
  | cons c pre ih => simp [ih]

theorem getElem?_length_append {α : Type} (pre : List α) (a : α) (post : List α) :
    (pre ++ a :: post)[pre.length]? = some a := by
  induction pre with
  | nil => simp
  | cons c pre ih => simpa using ih

theorem readLinksLoop_sections (todo : List CoarseSeq)
    (hty : ∀ s ∈ todo, ∀ l ∈ s.Links, l.typed)
    (hlen : ∀ s ∈ todo, s.Links.length < 2147483648) :
    ∀ (pre : List CoarseSeq) (fuel : Nat), todo.length < fuel →
      readLinksLoop fuel pre.length (saveLinksPayload todo) (pre ++ todo.map clearLinks)
        = .ok (pre ++ todo) := by
  induction todo with
  | nil =>
    intro pre fuel hf
    cases fuel with
    | zero => omega
    | succ f => simp [saveLinksPayload, readLinksLoop, read32, readN]
  | cons s t ih =>
    intro pre fuel hf
    cases fuel with
    | zero => omega
    | succ f =>
      have hs : s.Links.length < 2147483648 := hlen s (List.mem_cons_self _ _)
      have hcnt : wrap32 (s.Links.length : Int) = (s.Links.length : Int) :=
        wrap32_small _ ⟨by omega, by omega⟩
      have hrd : read32 (be32 (s.Links.length : Int)
            ++ (s.Links.flatMap linkBytes ++ saveLinksPayload t))
          = .ok ((s.Links.length : Int), s.Links.flatMap linkBytes ++ saveLinksPayload t) :=
        read32_be32 _ _ ⟨by omega, by omega⟩
      have hrec := readLinkRecs_chain pre.length s.Links
        (hty s (List.mem_cons_self _ _)) (pre ++ clearLinks s :: t.map clearLinks)
        (clearLinks s) (saveLinksPayload t) (getElem?_length_append _ _ _)
      have hih := ih (fun s' hs' => hty s' (List.mem_cons_of_mem _ hs'))
        (fun s' hs' => hlen s' (List.mem_cons_of_mem _ hs')) (pre ++ [s]) f
        (by simp at hf; omega)
      have hback : ({ clearLinks s with Links := (clearLinks s).Links ++ s.Links } : CoarseSeq)
          = s := by
        simp [clearLinks]
      rw [hback, set_length_append] at hrec
      simp only [List.length_append, List.length_singleton, List.append_assoc,
        List.singleton_append] at hih
      simp only [saveLinksPayload, List.flatMap_cons, List.map_cons, readLinksLoop,
        seqLinksBytes, hcnt, List.append_assoc] at hrd ⊢
      rw [hrd]
      simp only [Int.toNat_ofNat]
      rw [show saveLinksPayload t = t.flatMap seqLinksBytes from rfl] at hrec hih
      rw [hrec]
      exact hih

/-- C7 (amended): when every link holds values of the width of its fields
and every chain has fewer than 2^31 links, `readLinks` on the unframed
payload of `saveLinks`, started on the same sequences with empty chains,
gives back every sequence with its chain: the same links in the same
order. -/
theorem links_roundtrip (seqs : List CoarseSeq)
    (hty : ∀ s ∈ seqs, ∀ l ∈ s.Links, l.typed)
    (hlen : ∀ s ∈ seqs, s.Links.length < 2147483648) :
    readLinksPayload (saveLinksPayload seqs) (seqs.map clearLinks) = .ok seqs := by
  have hfuel : seqs.length < (saveLinksPayload seqs).length + 1 := by
    have : seqs.length ≤ (saveLinksPayload seqs).length := by
      unfold saveLinksPayload
      induction seqs with
      | nil => simp
      | cons s t ih =>
        have h4 : (be32 (wrap32 (s.Links.length : Int))).length = 4 := beNat_length _ _
        have := ih (fun s' hs' => hty s' (List.mem_cons_of_mem _ hs'))
          (fun s' hs' => hlen s' (List.mem_cons_of_mem _ hs'))
        simp only [List.flatMap_cons, List.length_append, List.length_cons, seqLinksBytes, h4]
        omega
    omega
  have h := readLinksLoop_sections seqs hty hlen [] _ hfuel
  simpa [readLinksPayload] using h

/-- The amended C7 on two sequences, the first with the links `(42, 0, 10)`
and `(42, 10, 20)`, the second with the link `(0, 0, 0)`. -/
theorem links_roundtrip_witness :
    (∀ s ∈ [{ zeroLinksSeq 0 with
                Links := [NewLinkToCompressed 42 0 10, NewLinkToCompressed 42 10 20] },
            zeroLinksSeq 1],
        ∀ l ∈ s.Links, l.typed)
      ∧ readLinksPayload
          (saveLinksPayload
            [{ zeroLinksSeq 0 with
                Links := [NewLinkToCompressed 42 0 10, NewLinkToCompressed 42 10 20] },
             zeroLinksSeq 1])
          [zeroLinksSeq 0, zeroLinksSeq 0]
        = .ok [{ zeroLinksSeq 0 with
                  Links := [NewLinkToCompressed 42 0 10, NewLinkToCompressed 42 10 20] },
               zeroLinksSeq 1] :=
  ⟨by decide,
   links_roundtrip
     [{ zeroLinksSeq 0 with
          Links := [NewLinkToCompressed 42 0 10, NewLinkToCompressed 42 10 20] },
      zeroLinksSeq 1]
     (by decide) (by decide)⟩

theorem zeroLinks_payload (n : Nat) :
    (List.replicate n (NewLinkToCompressed 0 0 0)).flatMap linkBytes
      = List.replicate (4 * (2 * n)) 0 := by
  induction n with
  | zero => rfl
  | succ n ih =>
    have h8 : linkBytes (NewLinkToCompressed 0 0 0) = List.replicate 8 0 := by decide
    rw [List.replicate_succ, List.flatMap_cons, ih, h8, List.append_replicate_replicate]
    congr 1
    omega

theorem readLinksLoop_zeros (m : Nat) :
    ∀ (fuel k : Nat) (seqs : List CoarseSeq), m < fuel →
      readLinksLoop fuel k (List.replicate (4 * m) 0) seqs = .ok seqs := by
  induction m with
  | zero =>
    intro fuel k seqs hf
    cases fuel with
    | zero => omega
    | succ f => simp [readLinksLoop, read32, readN]
  | succ m ih =>
    intro fuel k seqs hf
    cases fuel with
    | zero => omega
    | succ f =>
      have hrep : List.replicate (4 * (m + 1)) 0 = 0 :: 0 :: 0 :: 0 :: List.replicate (4 * m) 0 := by
        rw [show 4 * (m + 1) = 4 * m + 1 + 1 + 1 + 1 by omega]
        simp [List.replicate_succ]
      have hrd : read32 (0 :: 0 :: 0 :: 0 :: List.replicate (4 * m) 0)
          = .ok (0, List.replicate (4 * m) 0) := by
        simp [read32, readN, beVal, wrap32]
      rw [hrep]
      simp only [readLinksLoop, hrd, Int.toNat_zero, readLinkRecs]
      exact ih f (k + 1) seqs (by omega)

theorem zeroLinksSeq_payload (n : Nat) :
    saveLinksPayload [zeroLinksSeq n]
      = be32 (wrap32 (n : Int)) ++ List.replicate (4 * (2 * n)) 0 := by
  simp [saveLinksPayload, seqLinksBytes, zeroLinksSeq, zeroLinks_payload]

theorem zeroLinksSeq_payload_length (n : Nat) :
    (saveLinksPayload [zeroLinksSeq n]).length = 4 + 4 * (2 * n) := by
  rw [zeroLinksSeq_payload, List.length_append, List.length_replicate]
  have h4 : (be32 (wrap32 (n : Int))).length = 4 := beNat_length _ _
  omega

theorem readLinksLoop_negative_count (n : Nat) (c : Int)
    (hrange : -2147483648 ≤ c ∧ c < 2147483648) (h : c ≤ 0) (seqs : List CoarseSeq) :
    readLinksLoop (4 + 4 * (2 * n) + 1) 0 (be32 c ++ List.replicate (4 * (2 * n)) 0) seqs
      = .ok seqs := by
  have hc : c.toNat = 0 := Int.toNat_of_nonpos h
  rw [readLinksLoop, read32_be32 _ _ hrange]
  simp only [hc, readLinkRecs]
  exact readLinksLoop_zeros (2 * n) _ _ _ (by omega)

theorem readLinks_count_overflow (n : Nat) (h : wrap32 (n : Int) ≤ 0) :
    readLinksPayload (saveLinksPayload [zeroLinksSeq n]) [clearLinks (zeroLinksSeq n)]
      = .ok [clearLinks (zeroLinksSeq n)] := by
  unfold readLinksPayload
  rw [zeroLinksSeq_payload_length, zeroLinksSeq_payload]
  exact readLinksLoop_negative_count n _ (wrap32_range _) h _

/-- C7 (counterexample): a chain of 2^31 links `(0, 0, 0)`, every field
within its width.  `saveLinks` counts them in an `int32`, which wraps to
-2^31, and `readLinks` on that payload leaves the sequence with an empty
chain. -/
theorem links_roundtrip_counterexample :
    (zeroLinksSeq 2147483648).Links.length = 2147483648
      ∧ (∀ l ∈ (zeroLinksSeq 2147483648).Links, l.typed)
      ∧ readLinksPayload (saveLinksPayload [zeroLinksSeq 2147483648])
          [clearLinks (zeroLinksSeq 2147483648)]
        = .ok [clearLinks (zeroLinksSeq 2147483648)]
      ∧ (clearLinks (zeroLinksSeq 2147483648)).Links.length = 0 := by
  refine ⟨List.length_replicate _ _, ?_, readLinks_count_overflow 2147483648 (by decide), rfl⟩
  intro l hl
  have hz : l = NewLinkToCompressed 0 0 0 := List.eq_of_mem_replicate hl
  rw [hz]
  decide

/-! ## C2: `CoarseDB.Expand` -/

theorem readLink_linkBytes (l : LinkToCompressed) (rest : Bytes) (h : l.typed) :
    readLink (linkBytes l ++ rest) = .ok (l, rest) := by
  unfold readLink
  rw [linkBytes_read l rest h]
  simp only [List.append_assoc, read16_be16 _ _ h.2.1, read16_be16 _ _ h.2.2,
    NewLinkToCompressed]

theorem firstSeen_filter_seen (a : Int) (ids l : List Int) (hmem : a ∈ ids) :
    List.filter (fun b => decide (b ∉ ids)) (List.filter (fun b => decide (b ≠ a)) l)
      = List.filter (fun b => decide (b ∉ ids)) l := by
  rw [List.filter_filter]
  apply List.filter_congr
  intro b _
  by_cases hb : b ∈ ids
  · simp [hb]
  · have : b ≠ a := fun h => hb (h ▸ hmem)
    simp [hb, this]

theorem firstSeen_filter_fresh (a : Int) (ids l : List Int) :
    List.filter (fun b => decide (b ∉ ids)) (List.filter (fun b => decide (b ≠ a)) l)
      = List.filter (fun b => decide (b ∉ a :: ids)) l := by
  rw [List.filter_filter]
  apply List.filter_congr
  intro b _
  by_cases hb : b ∈ ids <;> by_cases hb2 : b = a <;> simp [hb, hb2]

theorem readSeqCalls_length (x : Extern) (coarsedb : CoarseDB) (ids : List Int) :
    ∀ (comdb comdb1 : CompressedDB) (out : List OriginalSeq),
      readSeqCalls x coarsedb comdb ids = .ok (out, comdb1) → out.length = ids.length := by
  induction ids with
  | nil =>
    intro comdb comdb1 out h
    simp only [readSeqCalls, Except.ok.injEq, Prod.mk.injEq] at h
    rw [← h.1]
    rfl
  | cons i more ih =>
    intro comdb comdb1 out h
    unfold readSeqCalls at h
    split at h
    · cases h
    · next o cA hA =>
      split at h
      · cases h
      · next out1 c2 hrest =>
        simp only [Except.ok.injEq, Prod.mk.injEq] at h
        rw [← h.1, List.length_cons, List.length_cons, ih cA c2 out1 hrest]

/-- The loop of `Expand` over the records `recs`, `m` more to come: it
calls `ReadSeq` once for every id of `recs` that is not in `ids`, where the
id first occurs, each call on the database as the call before left it. -/
theorem expandLoop_prefix (x : Extern) (coarsedb : CoarseDB)
    (recs : List LinkToCompressed) (hty : ∀ r ∈ recs, r.typed) :
    ∀ (comdb comdb1 : CompressedDB) (m : Nat) (tail : Bytes) (ids : List Int)
      (oseqs out : List OriginalSeq),
      readSeqCalls x coarsedb comdb
          ((specFirstSeen (recs.map (fun r => r.OrgSeqId))).filter
            (fun b => decide (b ∉ ids))) = .ok (out, comdb1) →
      ∃ ids1,
        expandLoop x coarsedb comdb (recs.length + m) (recs.flatMap linkBytes ++ tail) ids oseqs
            = expandLoop x coarsedb comdb1 m tail ids1 (oseqs ++ out)
          ∧ ∀ i, i ∈ ids1 ↔ i ∈ ids ∨ i ∈ recs.map (fun r => r.OrgSeqId) := by
  induction recs with
  | nil =>
    intro comdb comdb1 m tail ids oseqs out h
    simp only [List.map_nil, specFirstSeen, List.filter_nil, readSeqCalls, Except.ok.injEq,
      Prod.mk.injEq] at h
    obtain ⟨h1, h2⟩ := h
    subst h1 h2
    exact ⟨ids, by simp, by simp⟩
  | cons r more ih =>
    intro comdb comdb1 m tail ids oseqs out h
    have hr : r.typed := hty r (List.mem_cons_self _ _)
    have hty' : ∀ r' ∈ more, r'.typed := fun r' h' => hty r' (List.mem_cons_of_mem _ h')
    have hlen : (r :: more).length + m = (more.length + m) + 1 := by
      simp only [List.length_cons]; omega
    rw [hlen]
    simp only [List.flatMap_cons, List.append_assoc, expandLoop, readLink_linkBytes r _ hr]
    simp only [List.map_cons, specFirstSeen, List.filter_cons] at h
    by_cases hmem : r.OrgSeqId ∈ ids
    · simp only [hmem, not_true_eq_false, decide_False, Bool.false_eq_true, if_false,
        firstSeen_filter_seen _ _ _ hmem] at h
      obtain ⟨ids1, hout, hids⟩ := ih hty' comdb comdb1 m tail ids oseqs out h
      refine ⟨ids1, by simp [hmem, hout], ?_⟩
      intro i
      rw [hids i]
      simp only [List.map_cons, List.mem_cons]
      constructor
      · rintro (h | h)
        · exact Or.inl h
        · exact Or.inr (Or.inr h)
      · rintro (h | h | h)
        · exact Or.inl h
        · exact Or.inl (h ▸ hmem)
        · exact Or.inr h
    · simp only [hmem, not_false_eq_true, decide_True, if_true, firstSeen_filter_fresh] at h
      unfold readSeqCalls at h
      split at h
      · cases h
      · next o cA hA =>
        split at h
        · cases h
        · next out1 c2 hrest =>
          simp only [Except.ok.injEq, Prod.mk.injEq] at h
          obtain ⟨h1, h2⟩ := h
          subst h1 h2
          obtain ⟨ids1, hout, hids⟩ :=
            ih hty' cA c2 m tail (r.OrgSeqId :: ids) (oseqs ++ [o]) out1 hrest
          have hc : ids.contains r.OrgSeqId = false := by simp [hmem]
          refine ⟨ids1, ?_, ?_⟩
          · simp only [hc, Bool.false_eq_true, if_false, hA, hout, List.append_assoc,
              List.singleton_append]
          · intro i
            rw [hids i]
            simp only [List.map_cons, List.mem_cons]
            constructor
            · rintro ((h | h) | h)
              · exact Or.inr (Or.inl h)
              · exact Or.inl h
              · exact Or.inr (Or.inr h)
            · rintro (h | h | h)
              · exact Or.inl (Or.inr h)
              · exact Or.inl (Or.inl h)
              · exact Or.inr h

/-- C2: when the links section of coarse sequence `id` starts at `off` and
lists the records `recs`, and the calls of `ReadSeq` for the distinct
`orgSeqId`s of `recs`, made one after the other in the order in which each
id first occurs, all succeed and give `oseqs`, then `Expand` returns
`oseqs`: one original sequence for every distinct `orgSeqId`, the one the
call for it gave, at the place where the id first occurs.  No further call
of `ReadSeq` is made: the compressed database is left as the last of these
calls left it. -/
theorem expand_first_seen (x : Extern) (coarsedb : CoarseDB) (comdb comdb1 : CompressedDB)
    (id off : Int) (recs : List LinkToCompressed) (rest : Bytes) (oseqs : List OriginalSeq)
    (hoff : coarsedb.linkOffset x id = .ok off)
    (hseek : x.seek off = .ok off)
    (hsec : coarsedb.FileLinks.drop off.toNat
      = be32 (recs.length : Int) ++ (recs.flatMap linkBytes ++ rest))
    (hlen : recs.length < 2147483648)
    (hty : ∀ r ∈ recs, r.typed)
    (hread : readSeqCalls x coarsedb comdb (specFirstSeen (recs.map (fun r => r.OrgSeqId)))
      = .ok (oseqs, comdb1)) :
    coarsedb.Expand x comdb id = .ok (oseqs, comdb1)
      ∧ oseqs.length = (specFirstSeen (recs.map (fun r => r.OrgSeqId))).length := by
  refine ⟨?_, readSeqCalls_length x coarsedb _ comdb comdb1 oseqs hread⟩
  obtain ⟨ids1, hout, _⟩ := expandLoop_prefix x coarsedb recs hty comdb comdb1 0 rest [] []
    oseqs (by simpa using hread)
  have hrd := read32_be32 (recs.length : Int) (recs.flatMap linkBytes ++ rest)
    ⟨by omega, by omega⟩
  have hneg : ¬ ((recs.length : Int) < 0) := by omega
  simp only [Nat.add_zero] at hout
  simp only [CoarseDB.Expand, hoff, hseek, hsec, hrd, hneg, ne_eq, not_true_eq_false,
    if_false, Int.toNat_ofNat, hout, List.nil_append, expandLoop]

/-- The claim C2 on the links `(0, 0, 1)`, `(2, 0, 1)` and `(0, 1, 2)`:
`ReadSeq` is called for the original 0 and then for the original 2, and
`Expand` returns the two sequences these calls give, in this order. -/
theorem expand_first_seen_witness :
    exampleTwoOriginals.Expand exampleExtern exampleThreeRecords 0
        = .ok ([{ Name := [0x61], Residues := [], Offset := 0, Id := 0 },
                { Name := [0x62], Residues := [], Offset := 0, Id := 2 }],
            { exampleThreeRecords with csvReader := [0x63, 0x0A] })
      ∧ ([{ Name := [0x61], Residues := [], Offset := 0, Id := 0 },
          { Name := [0x62], Residues := [], Offset := 0, Id := 2 }] :
          List OriginalSeq).length
        = (specFirstSeen
            ([NewLinkToCompressed 0 0 1, NewLinkToCompressed 2 0 1,
              NewLinkToCompressed 0 1 2].map (fun r => r.OrgSeqId))).length :=
  expand_first_seen exampleExtern exampleTwoOriginals exampleThreeRecords
    { exampleThreeRecords with csvReader := [0x63, 0x0A] } 0 0
    [NewLinkToCompressed 0 0 1, NewLinkToCompressed 2 0 1, NewLinkToCompressed 0 1 2] []
    [{ Name := [0x61], Residues := [], Offset := 0, Id := 0 },
     { Name := [0x62], Residues := [], Offset := 0, Id := 2 }] rfl rfl rfl
    (by decide) (by decide) rfl

/-- Coarse sequence 1 of `exampleReadCoarseDB`, whose section lists the
links `(42, 0, 10)` and `(42, 10, 20)`: `Expand` returns one original
sequence, number 42. -/
theorem expand_same_original_twice :
    exampleReadCoarseDB.Expand exampleExtern exampleCompressedDB 1
      = .ok ([{ Name := [0x73], Residues := [0x41, 0x42], Offset := 0, Id := 42 }],
          exampleCompressedDB) :=
  rfl

/-- The reader of the compressed database keeps its buffer over a seek.
On `exampleThreeRecords`, `ReadSeq(0)` returns record `a` and leaves the
records `b` and `c` in the buffer; `ReadSeq(2)` on the database so left
returns record `b` under the id 2, where a database just opened gives
record `c`, the one the index entry points to.  `Expand` on the links
`(0, 0, 1)`, `(2, 0, 1)` and `(0, 1, 2)` makes these two calls and returns
what they return. -/
theorem readSeq_keeps_buffer :
    exampleThreeRecords.ReadSeq exampleExtern exampleTwoOriginals 0
        = .ok ({ Name := [0x61], Residues := [], Offset := 0, Id := 0 },
            { exampleThreeRecords with csvReader := [0x62, 0x0A, 0x63, 0x0A] })
      ∧ CompressedDB.ReadSeq exampleExtern
          { exampleThreeRecords with csvReader := [0x62, 0x0A, 0x63, 0x0A] } exampleTwoOriginals 2
        = .ok ({ Name := [0x62], Residues := [], Offset := 0, Id := 2 },
            { exampleThreeRecords with csvReader := [0x63, 0x0A] })
      ∧ exampleThreeRecords.ReadSeq exampleExtern exampleTwoOriginals 2
        = .ok ({ Name := [0x63], Residues := [], Offset := 0, Id := 2 }, exampleThreeRecords)
      ∧ exampleTwoOriginals.Expand exampleExtern exampleThreeRecords 0
        = .ok ([{ Name := [0x61], Residues := [], Offset := 0, Id := 0 },
                { Name := [0x62], Residues := [], Offset := 0, Id := 2 }],
            { exampleThreeRecords with csvReader := [0x63, 0x0A] }) :=
  ⟨rfl, rfl, rfl, rfl⟩

/-! ## C3: the compressed writer -/

theorem wrap64_small (v : Int) (h : 0 ≤ v ∧ v < 9223372036854775808) : wrap64 v = v := by
  unfold wrap64
  simp only []
  split_ifs <;> omega

theorem writerLoop_inv (x : Extern) (sent : List CompressedSeq) :
    ∀ (st st1 : WriterState) (b : Nat), st.byteOffset = (b : Int) → b ≤ st.File.length →
      st.File.length ≤ 9223372036854775807 →
      writerLoop x st sent = .ok st1 →
      st1.File = st.File ++ (writerRecords x sent).flatten
        ∧ st1.Index
            = st.Index ++ (recordOffsets b (writerRecords x sent)).flatMap (fun o => be64 (o : Int))
        ∧ st1.File.length ≤ 9223372036854775807 := by
  induction sent with
  | nil =>
    intro st st1 b _ _ hmax h
    simp only [writerLoop, Except.ok.injEq] at h
    subst h
    simp [writerRecords, recordOffsets, hmax]
  | cons c more ih =>
    intro st st1 b hb hle hmax h
    simp only [writerLoop, writerStep, fileWrite] at h
    split_ifs at h with hfit
    simp only [] at h
    have hoff : wrap64 (st.byteOffset + ((x.csvWrite (writerRecord c)).length : Int))
        = ((b + (x.csvWrite (writerRecord c)).length : Nat) : Int) := by
      rw [hb, wrap64_small _ ⟨by omega, by omega⟩]
      push_cast
      rfl
    obtain ⟨hf, hi, hm⟩ := ih _ st1 (b + (x.csvWrite (writerRecord c)).length) hoff
      (by simp only [List.length_append]; omega)
      (by simp only [List.length_append]; omega) h
    refine ⟨?_, ?_, hm⟩
    · simp [hf, writerRecords]
    · simp [hi, hb, writerRecords, recordOffsets]

theorem recordOffsets_length (b : Nat) (recs : List Bytes) :
    (recordOffsets b recs).length = recs.length := by
  induction recs generalizing b with
  | nil => rfl
  | cons r more ih => simp [recordOffsets, ih]

theorem index_entry (recs : List Bytes) :
    ∀ (b j : Nat), j < recs.length →
      ∃ tail, ((recordOffsets b recs).flatMap (fun o => be64 (o : Int))).drop (8 * j)
        = be64 ((b + ((recs.take j).flatten).length : Nat) : Int) ++ tail := by
  induction recs with
  | nil => intro b j hj; simp at hj
  | cons r more ih =>
    intro b j hj
    cases j with
    | zero =>
      exact ⟨(recordOffsets (b + r.length) more).flatMap (fun o => be64 (o : Int)),
        by simp [recordOffsets]⟩
    | succ j =>
      obtain ⟨tail, ht⟩ := ih (b + r.length) j (by simpa using hj)
      refine ⟨tail, ?_⟩
      have h8 : (be64 (b : Int)).length = 8 := beNat_length _ _
      have hd : 8 * (j + 1) = (be64 (b : Int)).length + 8 * j := by omega
      simp only [recordOffsets, List.flatMap_cons, hd, List.drop_append, ht, List.take_succ_cons,
        List.flatten_cons, List.length_append]
      congr 3
      omega

theorem flatMap_be64_length (os : List Nat) :
    (os.flatMap (fun o => be64 (o : Int))).length = 8 * os.length := by
  induction os with
  | nil => rfl
  | cons o more ih =>
    have h8 : (be64 (o : Int)).length = 8 := beNat_length _ _
    simp only [List.flatMap_cons, List.length_append, List.length_cons, ih, h8]
    omega

theorem take_flatten_length_le (recs : List Bytes) (j : Nat) :
    ((recs.take j).flatten).length ≤ recs.flatten.length := by
  conv_rhs => rw [← List.take_append_drop j recs]
  simp only [List.flatten_append, List.length_append]
  omega

theorem flatten_at {α : Type} (l : List (List α)) :
    ∀ (j : Nat) (r : List α), l[j]? = some r →
      l.flatten = (l.take j).flatten ++ (r ++ (l.drop (j + 1)).flatten) := by
  induction l with
  | nil => intro j r h; simp at h
  | cons a t ih =>
    intro j r h
    cases j with
    | zero =>
      simp only [List.getElem?_cons_zero, Option.some.injEq] at h
      simp [h]
    | succ j =>
      simp only [List.getElem?_cons_succ] at h
      simp only [List.flatten_cons, List.take_succ_cons, List.drop_succ_cons, List.append_assoc]
      rw [← ih j r h]

theorem record_at_offset (recs : List Bytes) (j : Nat) (r : Bytes) (h : recs[j]? = some r) :
    (recs.flatten.drop ((recs.take j).flatten).length).take r.length = r := by
  rw [flatten_at recs j r h, List.drop_left, List.take_left]

theorem writer_offsets_of_ok (x : Extern) (sent : List CompressedSeq) (db : CompressedDB)
    (h : CompressedDB.writer x { File := [], Index := [] } sent = .ok db) :
    db.File = (writerRecords x sent).flatten
      ∧ db.Index.length = 8 * sent.length
      ∧ ∀ j, j < sent.length →
          ∃ rest, read64 (db.Index.drop (8 * j))
            = .ok (((((writerRecords x sent).take j).flatten).length : Int), rest) := by
  unfold CompressedDB.writer at h
  split at h
  · cases h
  · next st hst =>
    cases h
    obtain ⟨hf, hi, hm⟩ := writerLoop_inv x sent _ st 0 rfl (Nat.zero_le _) (by simp) hst
    simp only [List.nil_append] at hf hi
    have hlenrec : (writerRecords x sent).length = sent.length := by simp [writerRecords]
    refine ⟨hf, ?_, ?_⟩
    · simp only [hi, flatMap_be64_length, recordOffsets_length, hlenrec]
    · intro j hj
      obtain ⟨tail, ht⟩ := index_entry (writerRecords x sent) 0 j (by omega)
      have hle := take_flatten_length_le (writerRecords x sent) j
      rw [hf] at hm
      refine ⟨tail, ?_⟩
      simp only [hi, ht, Nat.zero_add]
      exact read64_be64 _ _ ⟨by omega, by omega⟩

theorem writerLoop_total (x : Extern) (sent : List CompressedSeq) :
    ∀ (st : WriterState),
      st.File.length + ((writerRecords x sent).flatten).length ≤ 9223372036854775807 →
      ∃ st1, writerLoop x st sent = .ok st1 := by
  induction sent with
  | nil => intro st _; exact ⟨st, rfl⟩
  | cons c more ih =>
    intro st hfit
    simp only [writerRecords, List.map_cons, List.flatten_cons, List.length_append] at hfit
    have hstep : st.File.length + (x.csvWrite (writerRecord c)).length
        ≤ 9223372036854775807 := by omega
    simp only [writerLoop, writerStep, fileWrite, hstep, if_true]
    apply ih
    simp only [List.length_append, writerRecords]
    omega

/-- C3: the writer is started on empty data and index files and receives
the values `sent`, whose records together fit a file (at most 2^63 - 1
bytes).  It then runs through, the data file is the records laid end to
end in the order sent, the index file has eight bytes for each record, the
`int64` read big-endian at byte `8 * j` of the index is the number of
bytes of the records before record `j`, and record `j` is what the data
file holds from that offset on. -/
theorem writer_index_offsets (x : Extern) (sent : List CompressedSeq)
    (hfit : ((writerRecords x sent).flatten).length ≤ 9223372036854775807) :
    ∃ db, CompressedDB.writer x { File := [], Index := [] } sent = .ok db
      ∧ db.File = (writerRecords x sent).flatten
      ∧ db.Index.length = 8 * sent.length
      ∧ (∀ j, j < sent.length →
          ∃ rest, read64 (db.Index.drop (8 * j))
            = .ok (((((writerRecords x sent).take j).flatten).length : Int), rest))
      ∧ ∀ j r, (writerRecords x sent)[j]? = some r →
          (db.File.drop (((writerRecords x sent).take j).flatten).length).take r.length = r := by
  obtain ⟨st1, hst⟩ := writerLoop_total x sent { File := [], Index := [], byteOffset := 0 }
    (by simpa using hfit)
  have hw : CompressedDB.writer x { File := [], Index := [] } sent
      = .ok { File := st1.File, Index := st1.Index } := by
    simp only [CompressedDB.writer, hst]
  obtain ⟨hf, hl, hi⟩ := writer_offsets_of_ok x sent _ hw
  refine ⟨_, hw, hf, hl, hi, ?_⟩
  intro j r hr
  rw [hf]
  exact record_at_offset _ j r hr

/-- The claim C3 on the two values of `exampleSent`. -/
theorem writer_index_offsets_witness :
    ((writerRecords exampleExtern exampleSent).flatten).length ≤ 9223372036854775807
      ∧ ∃ db, CompressedDB.writer exampleExtern { File := [], Index := [] } exampleSent = .ok db
        ∧ db.File = (writerRecords exampleExtern exampleSent).flatten
        ∧ db.Index.length = 8 * exampleSent.length
        ∧ (∀ j, j < exampleSent.length →
            ∃ rest, read64 (db.Index.drop (8 * j))
              = .ok (((((writerRecords exampleExtern exampleSent).take j).flatten).length : Int),
                  rest))
        ∧ ∀ j r, (writerRecords exampleExtern exampleSent)[j]? = some r →
            (db.File.drop
              (((writerRecords exampleExtern exampleSent).take j).flatten).length).take r.length
              = r :=
  ⟨by decide, writer_index_offsets exampleExtern exampleSent (by decide)⟩

/-- The files the writer leaves for `exampleSent`: the records `s,0,0,2,`
and `t`, and the offsets 0 and 9. -/
theorem writer_example :
    CompressedDB.writer exampleExtern { File := [], Index := [] } exampleSent
      = .ok { File := [0x73, 0x2C, 0x30, 0x2C, 0x30, 0x2C, 0x32, 0x2C, 0x0A, 0x74, 0x0A],
              Index := [0, 0, 0, 0, 0, 0, 0, 0, 0, 0, 0, 0, 0, 0, 0, 9] } :=
  rfl

/-! ## C4, C5, C6: `readCompressedSeq` -/

/-- C4 (code at the failing input): for the compressed sequence `s` with
the one link `(1, 2, 3, "d")` the writer builds the record
`s, 1, 2, 3, d`; `readCompressedSeq` turns it into a sequence of two links,
the zero link that `make` put there and the link of the record. -/
theorem readCompressedSeq_writerRecord_links :
    writerRecord exampleLinked = [[0x73], [0x31], [0x32], [0x33], [0x64]]
      ∧ readCompressedSeq 5 (writerRecord exampleLinked)
        = .ok ({ exampleLinked with Links := LinkToCoarse.zero :: exampleLinked.Links }, none) :=
  ⟨rfl, rfl⟩

theorem readCompressedLinks_no_error :
    ∀ (fields : List Bytes) (cseq out : CompressedSeq) (e : Err),
      readCompressedLinks fields cseq ≠ .ok (out, some e)
  | [], cseq, out, e => by simp [readCompressedLinks]
  | [f0], cseq, out, e => by
    cases h0 : Atoi f0 <;> simp [readCompressedLinks, h0]
  | [f0, f1], cseq, out, e => by
    cases h0 : Atoi f0 <;> cases h1 : Atoi f1 <;> simp [readCompressedLinks, h0, h1]
  | [f0, f1, f2], cseq, out, e => by
    cases h0 : Atoi f0 <;> cases h1 : Atoi f1 <;> cases h2 : Atoi f2 <;>
      simp [readCompressedLinks, h0, h1, h2]
  | f0 :: f1 :: f2 :: f3 :: rest3, cseq, out, e => by
    cases h0 : Atoi f0 <;> cases h1 : Atoi f1 <;> cases h2 : Atoi f2 <;>
      simp only [readCompressedLinks, h0, h1, h2, ne_eq, Except.ok.injEq, Prod.mk.injEq,
        reduceCtorEq, and_false, not_false_eq_true]
    exact readCompressedLinks_no_error rest3 _ out e

/-- No call of `readCompressedSeq` returns an error value. -/
theorem readCompressedSeq_no_error (id : Int) (record : List Bytes) (out : CompressedSeq)
    (e : Err) : readCompressedSeq id record ≠ .ok (out, some e) := by
  unfold readCompressedSeq
  cases record with
  | nil => simp
  | cons name fields => exact readCompressedLinks_no_error fields _ out e

/-- C5 (code at the failing input): on the record `s, x, 2, 3, d`, whose
`coarseSeqId` field `x` is not a number, `readCompressedSeq` returns the
zero `CompressedSeq` and a `nil` error, and `ReadSeq` on a database with
that record goes on to decompress the zero value and returns a sequence. -/
theorem readCompressedSeq_non_integer :
    Atoi [0x78] = none
      ∧ readCompressedSeq 0 [[0x73], [0x78], [0x32], [0x33], [0x64]]
        = .ok (CompressedSeq.zero, none)
      ∧ exampleMalformedDB.ReadSeq exampleExtern exampleReadCoarseDB 0
        = .ok ({ Name := [], Residues := [], Offset := 0, Id := 0 }, exampleMalformedDB) :=
  ⟨rfl, rfl, rfl⟩

/-- C6 (code at the failing input): on the record `s, x` of two fields
`readCompressedSeq` returns the zero `CompressedSeq` and a `nil` error; on
the empty record and on the record `s, 1` it ends in a panic (index out of
range) instead of returning an error. -/
theorem readCompressedSeq_field_count :
    readCompressedSeq 0 [[0x73], [0x78]] = .ok (CompressedSeq.zero, none)
      ∧ readCompressedSeq 0 [] = .error .panic
      ∧ readCompressedSeq 0 [[0x73], [0x31]] = .error .panic :=
  ⟨rfl, rfl, rfl⟩

/-! ## C8: `Save` and the links index -/

theorem saveSeeds_linksIndex (x : Extern) (db db1 : CoarseDB) (h : db.saveSeeds x = .ok db1) :
    db1.FileLinksIndex = db.FileLinksIndex ∧ db1.plain = db.plain ∧ db1.readOnly = db.readOnly := by
  unfold CoarseDB.saveSeeds at h
  split at h
  · cases h
  · cases h; exact ⟨rfl, rfl, rfl⟩

theorem saveSeedsPlain_linksIndex (x : Extern) (db db1 : CoarseDB)
    (h : db.saveSeedsPlain x = .ok db1) : db1.FileLinksIndex = db.FileLinksIndex := by
  unfold CoarseDB.saveSeedsPlain at h
  split at h
  · cases h
  · split at h
    · cases h
    · cases h; rfl

theorem saveFasta_linksIndex (db db1 : CoarseDB) (h : db.saveFasta = .ok db1) :
    db1.FileLinksIndex = db.FileLinksIndex ∧ db1.plain = db.plain ∧ db1.readOnly = db.readOnly := by
  unfold CoarseDB.saveFasta at h
  split_ifs at h
  cases h
  exact ⟨rfl, rfl, rfl⟩

/-- `Save` writes nothing to the links index, whatever the database. -/
theorem save_linksIndex (x : Extern) (db db1 : CoarseDB) (h : db.Save x = .ok db1) :
    db1.FileLinksIndex = db.FileLinksIndex := by
  unfold CoarseDB.Save at h
  split at h
  · cases h
  · next dbA hA =>
    have hfa := saveFasta_linksIndex db dbA hA
    dsimp only at h
    split at h
    · cases h
    · next dbB hB =>
      have hB' : dbB.FileLinksIndex = dbA.FileLinksIndex := by
        by_cases hro : (dbA.saveLinks x).readOnly = true
        · simp only [hro, Bool.not_true, Bool.false_eq_true, if_false, Except.ok.injEq] at hB
          rw [← hB]; rfl
        · simp only [hro, Bool.not_false, if_true] at hB
          exact (saveSeeds_linksIndex x _ _ hB).1
      split_ifs at h with hp hr
      · rw [saveSeedsPlain_linksIndex x _ _ h]
        show dbB.FileLinksIndex = _
        rw [hB', hfa.1]
      · cases h
        show dbB.FileLinksIndex = _
        rw [hB', hfa.1]
      · cases h
        rw [hB', hfa.1]

/-- C8 (code at the failing input): a new database to which `AB` was
added is saved.  It holds one coarse sequence, its links file holds the
section of that sequence (the count 0), and the links-index file is still
empty: reading entry 0 fails. -/
theorem save_writes_no_links_index :
    ∃ db, (emptyCoarseDB.Add exampleExtern [0x41, 0x42]).2.Save exampleExtern = .ok db
      ∧ db.Seqs.length = 1
      ∧ db.FileLinks = [0, 0, 0, 0]
      ∧ db.FileLinksIndex = []
      ∧ db.linkOffset exampleExtern 0 = .error .ioError :=
  ⟨_, rfl, rfl, rfl, rfl, rfl⟩

/-! ## C9: `load`, `Add`, `Save` and the coarse FASTA file -/

theorem load_seqsRead (x : Extern) (db db1 : CoarseDB) (h : db.load x = .ok db1) :
    db1.seqsRead = db.seqsRead := by
  unfold CoarseDB.load at h
  split at h
  · cases h
  · next dbA hA =>
    split at h
    · cases h
    · next dbB hB =>
      split at h
      · cases h
      · next dbC hC =>
        have h1 : dbA.seqsRead = db.seqsRead := by
          unfold CoarseDB.readFasta at hA
          split at hA
          · cases hA
          · cases hA; rfl
        have h2 : dbB.seqsRead = dbA.seqsRead := by
          unfold CoarseDB.readSeeds at hB
          split at hB
          · cases hB
          · split at hB
            · cases hB
            · cases hB; rfl
        have h3 : dbC.seqsRead = dbB.seqsRead := by
          unfold CoarseDB.readLinks at hC
          split at hC
          · cases hC
          · split at hC
            · cases hC
            · cases hC; rfl
        dsimp only at h
        split_ifs at h <;> cases h <;> simp [h1, h2, h3]

/-- In either mode the database `NewWriteCoarseDB` returns has
`seqsRead = 0`. -/
theorem newWriteCoarseDB_seqsRead (x : Extern) (appnd : Bool) (dir : DB) (db : CoarseDB)
    (h : NewWriteCoarseDB x appnd dir = .ok db) : db.seqsRead = 0 := by
  unfold NewWriteCoarseDB at h
  cases appnd with
  | true =>
    simp only [if_true] at h
    rw [load_seqsRead x _ db h]
  | false =>
    simp only [Bool.false_eq_true, if_false, Except.ok.injEq] at h
    rw [← h]

/-- C9 (code at the failing input): the directory holds a coarse FASTA
with the one entry `> 0`, `AB`.  Opened in append mode, the database has
one sequence and `seqsRead = 0`; `Save`, with nothing added, appends the
entry for id 0 once more. -/
theorem append_save_rewrites_loaded :
    ∃ db1 db2, NewWriteCoarseDB exampleExtern true exampleSavedDir = .ok db1
      ∧ db1.Seqs.length = 1
      ∧ db1.seqsRead = 0
      ∧ db1.FileFasta = fastaEntry 0 [0x41, 0x42]
      ∧ db1.Save exampleExtern = .ok db2
      ∧ db2.FileFasta = fastaEntry 0 [0x41, 0x42] ++ fastaEntry 0 [0x41, 0x42] :=
  ⟨_, _, rfl, rfl, rfl, rfl, rfl, rfl⟩

/-! ## `%d` and `strconv.Atoi` -/

theorem parseDigits_fmtNatAux (fuel : Nat) :
    ∀ (n : Nat) (acc : Bytes), n < fuel →
      ∃ k, ∀ a, parseDigits (fmtNatAux fuel n acc) a = parseDigits acc (a * 10 ^ k + n) := by
  induction fuel with
  | zero => intro n acc h; omega
  | succ fuel ih =>
    intro n acc h
    by_cases hn : n < 10
    · refine ⟨1, fun a => ?_⟩
      have h1 : 48 ≤ 48 + n ∧ 48 + n ≤ 57 := by omega
      simp only [fmtNatAux, hn, if_true, parseDigits, h1, and_self, pow_one]
      congr 1
      omega
    · obtain ⟨k, hk⟩ := ih (n / 10) ((0x30 + n % 10) :: acc) (by omega)
      refine ⟨k + 1, fun a => ?_⟩
      have h1 : 48 ≤ 48 + n % 10 ∧ 48 + n % 10 ≤ 57 := by omega
      simp only [fmtNatAux, hn, if_false, hk, parseDigits, h1, and_self, if_true]
      congr 1
      rw [pow_succ]
      have := Nat.div_add_mod n 10
      have e : 48 + n % 10 - 48 = n % 10 := by omega
      rw [e]
      nlinarith [this]

theorem parseDigits_fmtNat (n : Nat) : parseDigits (fmtNat n) 0 = some n := by
  obtain ⟨k, hk⟩ := parseDigits_fmtNatAux (n + 1) n [] (by omega)
  simp [fmtNat, hk, parseDigits]

theorem fmtNatAux_head (fuel : Nat) :
    ∀ (n : Nat) (acc : Bytes), n < fuel →
      ∃ d rest, fmtNatAux fuel n acc = d :: rest ∧ 48 ≤ d ∧ d ≤ 57 := by
  induction fuel with
  | zero => intro n acc h; omega
  | succ fuel ih =>
    intro n acc h
    by_cases hn : n < 10
    · exact ⟨48 + n, acc, by simp [fmtNatAux, hn], by omega, by omega⟩
    · obtain ⟨d, rest, hd⟩ := ih (n / 10) ((0x30 + n % 10) :: acc) (by omega)
      exact ⟨d, rest, by simp only [fmtNatAux, hn, if_false, hd.1], hd.2⟩

/-- `Atoi` reads back what `%d` prints for an `int` of 64 bits. -/
theorem Atoi_fmtInt (v : Int) (h : -9223372036854775808 ≤ v ∧ v < 9223372036854775808) :
    Atoi (fmtInt v) = some v := by
  by_cases hneg : v < 0
  · obtain ⟨d, rest, hd, _, _⟩ := fmtNatAux_head ((-v).toNat + 1) (-v).toNat [] (by omega)
    have hp := parseDigits_fmtNat (-v).toNat
    have hb : (-v).toNat ≤ 9223372036854775808 := by omega
    have hv : -(((-v).toNat : Nat) : Int) = v := by omega
    simp only [fmtInt, hneg, if_true, Atoi, true_or, decide_True]
    rw [show fmtNat (-v).toNat = d :: rest from hd] at hp ⊢
    simp only [List.isEmpty_cons, Bool.false_eq_true, if_false, hp, hb, if_true, hv]
  · obtain ⟨d, rest, hd, hd1, hd2⟩ := fmtNatAux_head (v.toNat + 1) v.toNat [] (by omega)
    have hp := parseDigits_fmtNat v.toNat
    have hb : v.toNat < 9223372036854775808 := by omega
    have hv : ((v.toNat : Nat) : Int) = v := by omega
    have hd' : fmtNat v.toNat = d :: rest := hd
    have hs1 : ¬ d = 45 := by omega
    have hs2 : ¬ d = 43 := by omega
    simp only [fmtInt, hneg, if_false, hd'] at hp ⊢
    simp only [Atoi, hs1, hs2, or_self, if_false, decide_False, List.isEmpty_cons,
      Bool.false_eq_true, hp, hb, if_true, hv]

theorem wrap32_of_range (v : Int) (h : -2147483648 ≤ v ∧ v < 2147483648) : wrap32 v = v := by
  unfold wrap32
  simp only []
  split_ifs <;> omega

theorem readCompressedLinks_writerRecord (links : List LinkToCoarse)
    (hty : ∀ l ∈ links, l.typed) :
    ∀ cseq : CompressedSeq,
      readCompressedLinks
          (links.flatMap (fun link =>
            [fmtInt link.CoarseSeqId, fmtInt link.CoarseStart, fmtInt link.CoarseEnd, link.Diff]))
          cseq
        = .ok ({ cseq with Links := cseq.Links ++ links }, none) := by
  induction links with
  | nil => intro cseq; simp [readCompressedLinks]
  | cons l more ih =>
    intro cseq
    have hl := hty l (List.mem_cons_self _ _)
    have h0 := Atoi_fmtInt l.CoarseSeqId ⟨by have := hl.1.1; omega, by have := hl.1.2; omega⟩
    have h1 := Atoi_fmtInt l.CoarseStart
      ⟨by have := hl.2.1.1; omega, by have := hl.2.1.2; omega⟩
    have h2 := Atoi_fmtInt l.CoarseEnd
      ⟨by have := hl.2.2.1; omega, by have := hl.2.2.2; omega⟩
    simp only [List.flatMap_cons, List.cons_append, List.nil_append, readCompressedLinks, h0, h1,
      h2, NewLinkToCoarseNoDiff, wrap32_of_range _ hl.1, wrap32_of_range _ hl.2.1,
      wrap32_of_range _ hl.2.2]
    rw [ih (fun l' h' => hty l' (List.mem_cons_of_mem _ h'))]
    simp [CompressedSeq.Add]

/-- What `readCompressedSeq` makes of the record the writer builds for a
compressed sequence `c` with `int32` link fields: the id asked for, the
name of `c`, and as links one zero link for every link of `c`, followed by
the links of `c`. -/
theorem readCompressedSeq_writerRecord (id : Int) (c : CompressedSeq)
    (hty : ∀ l ∈ c.Links, l.typed) :
    readCompressedSeq id (writerRecord c)
      = .ok ({ Id := id, Name := c.Name,
               Links := List.replicate c.Links.length LinkToCoarse.zero ++ c.Links }, none) := by
  have hlen : ∀ links : List LinkToCoarse,
      (links.flatMap (fun link =>
        [fmtInt link.CoarseSeqId, fmtInt link.CoarseStart, fmtInt link.CoarseEnd,
          link.Diff])).length = 4 * links.length := by
    intro links
    induction links with
    | nil => rfl
    | cons l more ih => simp only [List.flatMap_cons, List.length_append, List.length_cons, ih,
        List.length_nil]; omega
  simp only [readCompressedSeq, writerRecord, List.length_cons, hlen,
    readCompressedLinks_writerRecord c.Links hty]
  have : (4 * c.Links.length + 1 - 1) / 4 = c.Links.length := by omega
  rw [this]

theorem readCompressedLinks_partial_tuple :
    ∀ (fields : List Bytes) (cseq : CompressedSeq), fields.length % 4 ≠ 0 →
      readCompressedLinks fields cseq = .error .panic
        ∨ readCompressedLinks fields cseq = .ok (CompressedSeq.zero, none)
  | [], cseq, h => by simp at h
  | [f0], cseq, _ => by
    cases h0 : Atoi f0 <;> simp [readCompressedLinks, h0]
  | [f0, f1], cseq, _ => by
    cases h0 : Atoi f0 <;> cases h1 : Atoi f1 <;> simp [readCompressedLinks, h0, h1]
  | [f0, f1, f2], cseq, _ => by
    cases h0 : Atoi f0 <;> cases h1 : Atoi f1 <;> cases h2 : Atoi f2 <;>
      simp [readCompressedLinks, h0, h1, h2]
  | f0 :: f1 :: f2 :: f3 :: rest3, cseq, h => by
    have h' : rest3.length % 4 ≠ 0 := by
      simp only [List.length_cons] at h
      omega
    cases h0 : Atoi f0 <;> cases h1 : Atoi f1 <;> cases h2 : Atoi f2 <;>
      simp only [readCompressedLinks, h0, h1, h2, reduceCtorEq, false_or, or_true]
    exact readCompressedLinks_partial_tuple rest3 _ h'

/-- On a record whose number of fields is not of the form `1 + 4n`,
`readCompressedSeq` ends in a panic or returns the zero `CompressedSeq`
with a `nil` error. -/
theorem readCompressedSeq_wrong_count (id : Int) (record : List Bytes)
    (h : record.length % 4 ≠ 1) :
    readCompressedSeq id record = .error .panic
      ∨ readCompressedSeq id record = .ok (CompressedSeq.zero, none) := by
  cases record with
  | nil => exact Or.inl rfl
  | cons name fields =>
    have h' : fields.length % 4 ≠ 0 := by
      simp only [List.length_cons] at h
      omega
    exact readCompressedLinks_partial_tuple fields _ h'

/-! ## C12, C13, C11: `newSeq` and `newSubSequence` -/

/-- C12: `newSubSequence(start, end)` ends in the invalid-range panic
exactly when `start < 0`, `start ≥ end` or `end > len(Residues)`, and on
every other input it returns a sequence. -/
theorem newSubSequence_panics_iff (caseTab : Nat → Nat) (seq : sequence) (start stop : Int) :
    (seq.newSubSequence caseTab start stop = .error .panic
        ↔ (start < 0 ∨ start ≥ stop ∨ stop > (seq.Residues.length : Int)))
      ∧ (¬ (start < 0 ∨ start ≥ stop ∨ stop > (seq.Residues.length : Int))
          ↔ ∃ s, seq.newSubSequence caseTab start stop = .ok s) := by
  unfold sequence.newSubSequence sequence.Len
  by_cases h : start < 0 ∨ start ≥ stop ∨ stop > (seq.Residues.length : Int)
  · simp [h]
  · simp [h]

theorem specUpper_strip_clean (s : Bytes) :
    ∀ b ∈ specUpper (specStrip s), b ≠ 0x2A ∧ ¬ (0x61 ≤ b ∧ b ≤ 0x7A) := by
  intro b hb
  simp only [specUpper, specStrip, List.mem_map, List.mem_filter, decide_eq_true_eq] at hb
  obtain ⟨c, ⟨_, hc⟩, rfl⟩ := hb
  split_ifs with h1
  · omega
  · exact ⟨hc, h1⟩

/-- C13: for ASCII residues `newSeq` returns the sequence with the given
id and name, offset 0, and as residues the input with every `*` removed and
every letter `a` to `z` replaced by its capital, the other bytes kept in
their order; the result holds no `*` and no small letter. -/
theorem newSeq_ascii_normalised (caseTab : Nat → Nat) (id : Int) (name residues : Bytes)
    (h : ∀ c ∈ residues, c < 0x80) :
    (newSeq caseTab id name residues).Id = id
      ∧ (newSeq caseTab id name residues).Name = name
      ∧ (newSeq caseTab id name residues).Offset = 0
      ∧ (newSeq caseTab id name residues).Residues = specUpper (specStrip residues)
      ∧ ∀ b ∈ (newSeq caseTab id name residues).Residues,
          b ≠ 0x2A ∧ ¬ (0x61 ≤ b ∧ b ≤ 0x7A) := by
  rw [newSeq_ascii caseTab id name residues h]
  exact ⟨rfl, rfl, rfl, rfl, specUpper_strip_clean residues⟩

/-- The claim C13 on the residues `a*bC1`: the result is `ABC1`. -/
theorem newSeq_ascii_normalised_witness :
    (∀ c ∈ [0x61, 0x2A, 0x62, 0x43, 0x31], c < 0x80)
      ∧ (newSeq exampleExtern.caseTab 7 [0x6E] [0x61, 0x2A, 0x62, 0x43, 0x31]).Residues
          = [0x41, 0x42, 0x43, 0x31]
      ∧ (newSeq exampleExtern.caseTab 7 [0x6E] [0x61, 0x2A, 0x62, 0x43, 0x31]).Offset = 0 :=
  ⟨by decide,
   (newSeq_ascii_normalised exampleExtern.caseTab 7 [0x6E] [0x61, 0x2A, 0x62, 0x43, 0x31]
      (by decide)).2.2.2.1,
   (newSeq_ascii_normalised exampleExtern.caseTab 7 [0x6E] [0x61, 0x2A, 0x62, 0x43, 0x31]
      (by decide)).2.2.1⟩

theorem specUpper_strip_normal (s : Bytes) (h : ∀ c ∈ s, c < 0x80) :
    normalResidues (specUpper (specStrip s)) := by
  intro b hb
  refine ⟨?_, specUpper_strip_clean s b hb⟩
  simp only [specUpper, specStrip, List.mem_map, List.mem_filter, decide_eq_true_eq] at hb
  obtain ⟨c, ⟨hc, _⟩, rfl⟩ := hb
  have := h c hc
  split_ifs <;> omega

theorem newSeq_normal (caseTab : Nat → Nat) (id : Int) (name residues : Bytes)
    (h : normalResidues residues) :
    newSeq caseTab id name residues
      = { Name := name, Residues := residues, Offset := 0, Id := id } := by
  rw [newSeq_ascii caseTab id name residues (fun c hc => (h c hc).1)]
  have h1 : specStrip residues = residues := by
    unfold specStrip
    rw [List.filter_eq_self]
    intro c hc
    simpa using (h c hc).2.1
  have h2 : specUpper residues = residues := by
    unfold specUpper
    conv_rhs => rw [← List.map_id residues]
    apply List.map_congr_left
    intro c hc
    simp [(h c hc).2.2]
  rw [h1, h2]

theorem slice_normal (s : Bytes) (start stop : Int) (h : normalResidues s) :
    normalResidues (slice s start stop) := by
  intro b hb
  exact h b (List.mem_of_mem_drop (List.mem_of_mem_take hb))

theorem slice_length (s : Bytes) (start stop : Int)
    (h : 0 ≤ start ∧ start ≤ stop ∧ stop ≤ (s.length : Int)) :
    ((slice s start stop).length : Int) = stop - start := by
  unfold slice
  simp only [List.length_take, List.length_drop]
  omega

theorem builtFromAscii_normal (caseTab : Nat → Nat) (s : sequence)
    (h : BuiltFromAscii caseTab s) : normalResidues s.Residues := by
  induction h with
  | ofNewSeq id name residues hascii =>
    rw [newSeq_ascii caseTab id name residues hascii]
    exact specUpper_strip_normal residues hascii
  | ofSubSequence parent s start stop _ hs ih =>
    unfold sequence.newSubSequence at hs
    split_ifs at hs
    rw [newSeq_normal caseTab _ _ _ (slice_normal _ start stop ih)] at hs
    cases hs
    exact slice_normal _ start stop ih

/-- C11 (amended): for a parent built by `newSeq` from ASCII residues, or
by `newSubSequence` from such a sequence, and `0 ≤ start < end ≤ len`,
`newSubSequence(start, end)` returns a sequence with the id and the name of
the parent whose residues are `parent.Residues[start:end]`, `end - start`
bytes. -/
theorem newSubSequence_residues (caseTab : Nat → Nat) (parent : sequence) (start stop : Int)
    (hp : BuiltFromAscii caseTab parent)
    (hr : 0 ≤ start ∧ start < stop ∧ stop ≤ (parent.Residues.length : Int)) :
    ∃ s, parent.newSubSequence caseTab start stop = .ok s
      ∧ s.Id = parent.Id ∧ s.Name = parent.Name
      ∧ s.Residues = slice parent.Residues start stop
      ∧ (s.Residues.length : Int) = stop - start := by
  have hn := builtFromAscii_normal caseTab parent hp
  have hguard : ¬ (start < 0 ∨ start ≥ stop ∨ stop > parent.Len) := by
    unfold sequence.Len; omega
  refine ⟨{ Name := parent.Name, Residues := slice parent.Residues start stop,
            Offset := 0 + start, Id := parent.Id }, ?_, rfl, rfl, rfl, ?_⟩
  · simp only [sequence.newSubSequence, hguard, if_false,
      newSeq_normal caseTab _ _ _ (slice_normal _ start stop hn)]
  · exact slice_length _ _ _ ⟨hr.1, by omega, hr.2.2⟩

/-- The amended C11 on a subsequence of a subsequence of `ab*CDEFG`. -/
theorem newSubSequence_residues_witness :
    ∃ s, sequence.newSubSequence exampleExtern.caseTab
          { Name := [], Residues := [0x42, 0x43, 0x44, 0x45], Offset := 1, Id := 0 } 1 3
        = .ok s
      ∧ s.Id = 0 ∧ s.Name = []
      ∧ s.Residues = slice [0x42, 0x43, 0x44, 0x45] 1 3
      ∧ (s.Residues.length : Int) = 3 - 1 :=
  newSubSequence_residues exampleExtern.caseTab
    { Name := [], Residues := [0x42, 0x43, 0x44, 0x45], Offset := 1, Id := 0 } 1 3
    (BuiltFromAscii.ofSubSequence
      (newSeq exampleExtern.caseTab 0 [] [0x61, 0x62, 0x2A, 0x43, 0x44, 0x45, 0x46, 0x47])
      _ 1 5 (BuiltFromAscii.ofNewSeq 0 [] _ (by decide)) rfl)
    (by decide)

theorem stripStars_encodeRune_ne (r : Nat) : stripStars (encodeRune r) ≠ [0xC3] := by
  unfold encodeRune stripStars
  split_ifs with h1 h2 h3 h4
  · by_cases hr : r = 0x2A
    · simp [hr]
    · simp only [List.filter_cons, List.filter_nil, hr, ne_eq, not_false_eq_true, decide_True,
        if_true, List.cons.injEq, and_true]
      omega
  · have a1 : ¬ (0xC0 + r / 64 = 0x2A) := by omega
    have a2 : ¬ (0x80 + r % 64 = 0x2A) := by omega
    simp [List.filter_cons, a1, a2]
  · simp [List.filter_cons]
  · have a1 : ¬ (0xE0 + r / 4096 = 0x2A) := by omega
    have a2 : ¬ (0x80 + r / 64 % 64 = 0x2A) := by omega
    have a3 : ¬ (0x80 + r % 64 = 0x2A) := by omega
    simp [List.filter_cons, a1, a2, a3]
  · have a1 : ¬ (0xF0 + r / 262144 = 0x2A) := by omega
    have a2 : ¬ (0x80 + r / 4096 % 64 = 0x2A) := by omega
    have a3 : ¬ (0x80 + r / 64 % 64 = 0x2A) := by omega
    have a4 : ¬ (0x80 + r % 64 = 0x2A) := by omega
    simp [List.filter_cons, a1, a2, a3, a4]

/-- C11 (counterexample): the parent is `newSeq(0, "", [0xC3, 0xA9])`, built
by `newSeq`, with residues `0xC3 0x89`.  `newSubSequence(0, 1)` hands the
one byte `0xC3` to `newSeq` again; it is not UTF-8 on its own and
`strings.ToUpper` writes U+FFFD (or its image under the case table) for it:
in no environment are the residues of the result the byte `0xC3`, and with
no case mapping for U+FFFD they are the three bytes `0xEF 0xBF 0xBD`. -/
theorem newSubSequence_residues_counterexample :
    (∀ x : Extern, newSeq x.caseTab 0 [] [0xC3, 0xA9]
        = { Name := [], Residues := [0xC3, 0x89], Offset := 0, Id := 0 })
      ∧ slice [0xC3, 0x89] 0 1 = [0xC3]
      ∧ (∀ x : Extern, ∃ s,
          sequence.newSubSequence x.caseTab
              { Name := [], Residues := [0xC3, 0x89], Offset := 0, Id := 0 } 0 1 = .ok s
            ∧ s.Residues ≠ [0xC3])
      ∧ ∃ s, sequence.newSubSequence exampleExtern.caseTab
              { Name := [], Residues := [0xC3, 0x89], Offset := 0, Id := 0 } 0 1 = .ok s
            ∧ s.Residues = [0xEF, 0xBF, 0xBD] := by
  refine ⟨fun x => ?_, rfl, fun x => ?_, ?_⟩
  · simp [newSeq, stringsToUpper, stringsMap, decodeRune, isCont, unicodeToUpper,
      encodeRune, stripStars]
  · refine ⟨_, rfl, ?_⟩
    have hcode : (newSeq x.caseTab 0 [] (slice [0xC3, 0x89] 0 1)).Residues
        = stripStars (encodeRune (x.caseTab 0xFFFD)) := by
      simp [newSeq, slice, stringsToUpper, stringsMap, decodeRune, unicodeToUpper, RuneError]
    show (newSeq x.caseTab 0 [] (slice [0xC3, 0x89] 0 1)).Residues ≠ [0xC3]
    rw [hcode]
    exact stripStars_encodeRune_ne _
  · refine ⟨_, rfl, ?_⟩
    show (newSeq exampleExtern.caseTab 0 [] (slice [0xC3, 0x89] 0 1)).Residues = _
    simp [newSeq, slice, stringsToUpper, stringsMap, decodeRune, unicodeToUpper, RuneError,
      exampleExtern, encodeRune, stripStars]

/-! ## C14, C15: `IsLowComplexity` -/

/-- C14 (code at the failing input): on `AABBCC` with offset 3 and window
3 the loop runs over the whole string and counts a repeat at each second
`A`, `B` and `C`; `repeats` is never set back, reaches 3 and the result is
`true`, though no byte occurs three times in a row. -/
theorem isLowComplexity_without_run :
    IsLowComplexity [0x41, 0x41, 0x42, 0x42, 0x43, 0x43] 3 3 = true
      ∧ specWindow [0x41, 0x41, 0x42, 0x42, 0x43, 0x43] 3 3
          = [0x41, 0x41, 0x42, 0x42, 0x43, 0x43]
      ∧ specHasRun (specWindow [0x41, 0x41, 0x42, 0x42, 0x43, 0x43] 3 3) 3 = false := by
  decide

/-- C15 (code at the failing input): on `AAAAAAAA` with window 3 and
offset 0 the loop runs over `AAA`, the first byte sets `last` and only the
two others count as repeats, so that the result is `false` for a window
that is a run of three; at the offsets 1 to 4 it is `true`. -/
theorem isLowComplexity_misses_run :
    IsLowComplexity [0x41, 0x41, 0x41, 0x41, 0x41, 0x41, 0x41, 0x41] 0 3 = false
      ∧ specWindow [0x41, 0x41, 0x41, 0x41, 0x41, 0x41, 0x41, 0x41] 0 3 = [0x41, 0x41, 0x41]
      ∧ specHasRun (specWindow [0x41, 0x41, 0x41, 0x41, 0x41, 0x41, 0x41, 0x41] 0 3) 3 = true
      ∧ ∀ o ∈ [1, 2, 3, 4],
          IsLowComplexity [0x41, 0x41, 0x41, 0x41, 0x41, 0x41, 0x41, 0x41] o 3 = true := by
  decide

/-! ## C16: no original twice in the expanded hits -/

/-- What the loops keep true of `used` and `oseqs`: no id occurs twice in
`oseqs`, and every id of `oseqs` is in `used`. -/
theorem addOseqs_nodup (someOseqs : List OriginalSeq) :
    ∀ (st : List Int × List OriginalSeq),
      ((st.2.map (fun o => o.Id)).Nodup ∧ ∀ o ∈ st.2, o.Id ∈ st.1) →
      (((addOseqs someOseqs st).2.map (fun o => o.Id)).Nodup
        ∧ ∀ o ∈ (addOseqs someOseqs st).2, o.Id ∈ (addOseqs someOseqs st).1) := by
  induction someOseqs with
  | nil => intro st h; exact h
  | cons oseq more ih =>
    rintro ⟨used, oseqs⟩ ⟨hnd, hused⟩
    by_cases hmem : oseq.Id ∈ used
    · have hc : used.contains oseq.Id = true := by simp [hmem]
      simp only [addOseqs, hc, if_true]
      exact ih (used, oseqs) ⟨hnd, hused⟩
    · have hc : used.contains oseq.Id = false := by simp [hmem]
      simp only [addOseqs, hc, Bool.false_eq_true, if_false]
      apply ih (oseq.Id :: used, oseqs ++ [oseq])
      constructor
      · simp only [List.map_append, List.map_cons, List.map_nil]
        rw [List.nodup_append]
        refine ⟨hnd, List.nodup_singleton _, ?_⟩
        intro a ha hb
        simp only [List.mem_singleton] at hb
        subst hb
        obtain ⟨o, ho, hid⟩ := List.mem_map.mp ha
        exact hmem (hid ▸ hused o ho)
      · intro o ho
        simp only [List.mem_append, List.mem_singleton] at ho
        rcases ho with ho | rfl
        · exact List.mem_cons_of_mem _ (hused o ho)
        · exact List.mem_cons_self _ _

theorem usedCovers_addOseqs (someOseqs : List OriginalSeq) (st : List Int × List OriginalSeq)
    (h : usedCovers st) : usedCovers (addOseqs someOseqs st) :=
  addOseqs_nodup someOseqs st h

theorem usedCovers_expandHsps {E : Type} (c : SearchExtern E) (hit : Hit E)
    (hsps : List (Hsp E)) :
    ∀ st st1, usedCovers st → expandHsps c hit hsps st = .ok st1 → usedCovers st1 := by
  induction hsps with
  | nil =>
    intro st st1 h hok
    simp only [expandHsps, Except.ok.injEq] at hok
    exact hok ▸ h
  | cons hsp more ih =>
    intro st st1 h hok
    unfold expandHsps at hok
    split at hok
    · cases hok
    · exact ih st st1 h hok
    · split_ifs at hok
      · exact ih st st1 h hok
      · exact ih _ st1 (usedCovers_addOseqs _ st h) hok

theorem usedCovers_expandHits {E : Type} (c : SearchExtern E) (hits : List (Hit E)) :
    ∀ st st1, usedCovers st → expandHits c hits st = .ok st1 → usedCovers st1 := by
  induction hits with
  | nil =>
    intro st st1 h hok
    simp only [expandHits, Except.ok.injEq] at hok
    exact hok ▸ h
  | cons hit more ih =>
    intro st st1 h hok
    unfold expandHits at hok
    split at hok
    · cases hok
    · next st2 hhsps =>
      exact ih st2 st1 (usedCovers_expandHsps c hit hit.Hsps st st2 h hhsps) hok

theorem usedCovers_expandDmndLines {E : Type} (c : SearchExtern E) (lines : List Bytes) :
    ∀ st st1, usedCovers st → expandDmndLines c lines st = .ok st1 → usedCovers st1 := by
  induction lines with
  | nil =>
    intro st st1 h hok
    simp only [expandDmndLines, Except.ok.injEq] at hok
    exact hok ▸ h
  | cons line more ih =>
    intro st st1 h hok
    unfold expandDmndLines at hok
    split at hok
    · cases hok
    · next st2 hline =>
      refine ih st2 st1 ?_ hok
      unfold expandDmndLine at hline
      split at hline
      · cases hline
      · split at hline
        · cases hline
        · cases hline
        · split_ifs at hline
          · cases hline; exact h
          · cases hline; exact usedCovers_addOseqs _ st h

/-- C16: whatever the hit stream and whatever `Expand` returns, the list
`expandBlastHits` returns and the list `expandDmndHits` returns hold no two
original sequences with the same `Id`. -/
theorem expand_hits_no_duplicate_id {E : Type} (c : SearchExtern E) (out : Bytes)
    (oseqs : List OriginalSeq)
    (h : expandBlastHits c out = .ok oseqs ∨ expandDmndHits c out = .ok oseqs) :
    (oseqs.map (fun o => o.Id)).Nodup := by
  have h0 : usedCovers (([], []) : List Int × List OriginalSeq) :=
    ⟨List.nodup_nil, fun o ho => by simp at ho⟩
  rcases h with h | h
  · unfold expandBlastHits expandBlastResults at h
    split at h
    · cases h
    · split at h
      · cases h
      · next st hst =>
        cases h
        exact (usedCovers_expandHits c _ _ st h0 hst).1
  · unfold expandDmndHits expandDmndStream at h
    split at h
    · cases h
    · next st hst =>
      cases h
      exact (usedCovers_expandDmndLines c _ _ st h0 hst).1

/-- The claim C16 on two lines of diamond output for the coarse sequences
5 and 7, which both expand to the original 42: the list returned holds the
originals 42, 5 and 7, each once. -/
theorem expand_hits_no_duplicate_id_witness :
    expandDmndHits exampleSearch (exampleLine 5 0 ++ exampleLine 7 0)
        = .ok [exampleOriginal 42, exampleOriginal 5, exampleOriginal 7]
      ∧ ([exampleOriginal 42, exampleOriginal 5, exampleOriginal 7].map
          (fun o => o.Id)).Nodup :=
  ⟨rfl, expand_hits_no_duplicate_id exampleSearch (exampleLine 5 0 ++ exampleLine 7 0) _
    (Or.inr rfl)⟩

/-! ## C17: the tuples above the threshold -/

/-- C17 (code at the failing input): diamond output with a line for coarse
sequence 5, e-value 0, and a line for coarse sequence 4, e-value 9, above
the threshold 5; `Expand` returns an I/O error on coarse sequence 4.
`expandDmndHits` calls `Expand` on the second tuple before it looks at the
e-value and returns the error; on the stream without that tuple it returns
the originals 42 and 5, and so does `expandBlastHits` on the same two
tuples. -/
theorem dmnd_aborts_above_threshold :
    exampleSearch.scanLines (exampleLine 5 0 ++ exampleLine 4 9)
        = [exampleScanned 5 0, exampleScanned 4 9]
      ∧ dmndTuple exampleSearch (exampleScanned 4 9) = .ok (4, 1, 10, 9)
      ∧ dmndAbove exampleSearch (exampleScanned 4 9) = true
      ∧ dmndAbove exampleSearch (exampleScanned 5 0) = false
      ∧ exampleSearch.Expand 4 1 10 = .error .ioError
      ∧ expandDmndHits exampleSearch (exampleLine 5 0 ++ exampleLine 4 9)
        = .error (.expandFailed .ioError)
      ∧ expandDmndHits exampleSearch (exampleLine 5 0)
        = .ok [exampleOriginal 42, exampleOriginal 5]
      ∧ expandBlastHits exampleSearch [5, 1, 10, 0, 4, 1, 10, 9]
        = .ok [exampleOriginal 42, exampleOriginal 5] :=
  ⟨rfl, rfl, rfl, rfl, rfl, rfl, rfl, rfl⟩

/-! ## C18, C19: errors of `Expand` in the two functions -/

/-- Every error `Expand` returns ends `expandDmndHits` on the line where
it occurs, whatever the e-value of the line. -/
theorem expandDmndLine_expand_error {E : Type} (c : SearchExtern E) (line : Bytes)
    (st : List Int × List OriginalSeq) (t : Int × Int × Int × E) (e : Err)
    (ht : dmndTuple c line = .ok t) (he : c.Expand t.1 t.2.1 t.2.2.1 = .error e)
    (hne : e ≠ .panic) :
    expandDmndLine c line st = .error (.expandFailed e) := by
  obtain ⟨coarseID, hitFrom, hitTo, eval⟩ := t
  cases e with
  | panic => exact absurd rfl hne
  | ioError => simp only [expandDmndLine, ht, he]
  | seekMismatch => simp only [expandDmndLine, ht, he]
  | gzipErr => simp only [expandDmndLine, ht, he]
  | decompress => simp only [expandDmndLine, ht, he]

/-- A panic in `Expand` ends `expandBlastHits` too, whatever the e-value of
the tuple: the call comes before the test of the e-value. -/
theorem expandHsps_panic {E : Type} (c : SearchExtern E) (hit : Hit E) (hsp : Hsp E)
    (more : List (Hsp E)) (st : List Int × List OriginalSeq)
    (h : c.Expand hit.Accession hsp.HitFrom hsp.HitTo = .error .panic) :
    expandHsps c hit (hsp :: more) st = .error .panic := by
  simp only [expandHsps, h]

theorem expandHsps_returns {E : Type} (c : SearchExtern E) (hit : Hit E)
    (hnp : ∀ a f t, c.Expand a f t ≠ .error .panic) (hsps : List (Hsp E)) :
    ∀ st, ∃ st1, expandHsps c hit hsps st = .ok st1 := by
  induction hsps with
  | nil => intro st; exact ⟨st, rfl⟩
  | cons hsp more ih =>
    intro st
    unfold expandHsps
    split
    · next hp => exact absurd hp (hnp _ _ _)
    · exact ih st
    · split_ifs
      · exact ih st
      · exact ih _

theorem expandHits_returns {E : Type} (c : SearchExtern E)
    (hnp : ∀ a f t, c.Expand a f t ≠ .error .panic) (hits : List (Hit E)) :
    ∀ st, ∃ st1, expandHits c hits st = .ok st1 := by
  induction hits with
  | nil => intro st; exact ⟨st, rfl⟩
  | cons hit more ih =>
    intro st
    obtain ⟨st2, h2⟩ := expandHsps_returns c hit hnp hit.Hsps st
    obtain ⟨st1, h1⟩ := ih st2
    exact ⟨st1, by simp only [expandHits, h2, h1]⟩

/-- No error `Expand` returns ends `expandBlastHits`: once the output is
decoded it returns a list, unless a call of `Expand` panics. -/
theorem expandBlastHits_returns_list {E : Type} (c : SearchExtern E) (out : Bytes)
    (results : blast E) (h : c.xmlDecode out = .ok results)
    (hnp : ∀ a f t, c.Expand a f t ≠ .error .panic) :
    ∃ oseqs, expandBlastHits c out = .ok oseqs := by
  obtain ⟨st1, h1⟩ := expandHits_returns c hnp results.Hits ([], [])
  exact ⟨st1.2, by simp only [expandBlastHits, h, expandBlastResults, h1]⟩

/-- C18 (code at the failing input): diamond output with a line for coarse
sequence 3, on which `Expand` fails with a decompression error, and a line
for coarse sequence 5, both below the threshold.  `expandDmndHits` returns
the error; for the stream without the first tuple it returns the originals
42 and 5, and so does `expandBlastHits` for the same two tuples. -/
theorem dmnd_aborts_on_decompress_error :
    exampleSearch.Expand 3 1 10 = .error .decompress
      ∧ expandDmndHits exampleSearch (exampleLine 3 0 ++ exampleLine 5 0)
        = .error (.expandFailed .decompress)
      ∧ expandDmndHits exampleSearch (exampleLine 5 0)
        = .ok [exampleOriginal 42, exampleOriginal 5]
      ∧ expandBlastHits exampleSearch [3, 1, 10, 0, 5, 1, 10, 0]
        = .ok [exampleOriginal 42, exampleOriginal 5] :=
  ⟨rfl, rfl, rfl, rfl⟩

/-- C19 (code at the failing input): BLAST output with a hit for coarse
sequence 4, on which `Expand` fails with an I/O error, and a hit for coarse
sequence 5, both below the threshold.  `expandBlastHits` goes on and
returns the originals 42 and 5 without error; `expandDmndHits` returns the
error for the same two tuples. -/
theorem blast_skips_io_error :
    exampleSearch.Expand 4 1 10 = .error .ioError
      ∧ expandBlastHits exampleSearch [4, 1, 10, 0, 5, 1, 10, 0]
        = .ok [exampleOriginal 42, exampleOriginal 5]
      ∧ expandDmndHits exampleSearch (exampleLine 4 0 ++ exampleLine 5 0)
        = .error (.expandFailed .ioError) :=
  ⟨rfl, rfl, rfl⟩

/-! ## C20: `Expand` returns all the originals or an error -/

theorem readLink_short (s : Bytes) (h : s.length < 8) : readLink s = .error .ioError := by
  unfold readLink read32 read16 readN
  by_cases h4 : 4 ≤ s.length
  · simp only [h4, if_true, List.length_drop]
    by_cases h6 : 2 ≤ s.length - 4
    · have h8 : ¬ (2 ≤ s.length - 4 - 2) := by omega
      simp only [h6, if_true, List.length_drop, h8, if_false]
    · simp only [h6, if_false]
  · simp only [h4, if_false]

/-- C20: `Expand` on a coarse id returns an error, and so no sequence,
when the link offset cannot be read, when a seek fails or lands on another
position than the one asked for (in the index or in the links file), when
the count of links cannot be read, and, after any number of link records
read and expanded, when the next record cannot be read or `ReadSeq` fails
for an original not produced before. -/
theorem expand_error_no_partial_list (x : Extern) (coarsedb : CoarseDB) (comdb : CompressedDB)
    (id : Int) :
    (∀ e, coarsedb.linkOffset x id = .error e → coarsedb.Expand x comdb id = .error e)
      ∧ (∀ realOff, x.seek (wrap64 (wrap64 id * 8)) = .ok realOff →
          realOff ≠ wrap64 (wrap64 id * 8) →
          coarsedb.Expand x comdb id = .error .seekMismatch)
      ∧ (∀ off e, coarsedb.linkOffset x id = .ok off → x.seek off = .error e →
          coarsedb.Expand x comdb id = .error e)
      ∧ (∀ off newOff, coarsedb.linkOffset x id = .ok off → x.seek off = .ok newOff →
          newOff ≠ off → coarsedb.Expand x comdb id = .error .seekMismatch)
      ∧ (∀ off, coarsedb.linkOffset x id = .ok off → x.seek off = .ok off →
          (coarsedb.FileLinks.drop off.toNat).length < 4 →
          coarsedb.Expand x comdb id = .error .ioError)
      ∧ (∀ (off numLinks : Int) (recs : List LinkToCompressed) (tail : Bytes)
          (out : List OriginalSeq) (comdb1 : CompressedDB),
          coarsedb.linkOffset x id = .ok off → x.seek off = .ok off →
          coarsedb.FileLinks.drop off.toNat
            = be32 numLinks ++ (recs.flatMap linkBytes ++ tail) →
          (recs.length : Int) < numLinks → numLinks < 2147483648 →
          (∀ r ∈ recs, r.typed) →
          readSeqCalls x coarsedb comdb (specFirstSeen (recs.map (fun r => r.OrgSeqId)))
            = .ok (out, comdb1) →
          (tail.length < 8 → coarsedb.Expand x comdb id = .error .ioError)
            ∧ ∀ (r : LinkToCompressed) (rest : Bytes) (e : Err),
                tail = linkBytes r ++ rest → r.typed →
                r.OrgSeqId ∉ recs.map (fun r => r.OrgSeqId) →
                comdb1.ReadSeq x coarsedb r.OrgSeqId = .error e →
                coarsedb.Expand x comdb id = .error e) := by
  refine ⟨?_, ?_, ?_, ?_, ?_, ?_⟩
  · intro e h
    simp only [CoarseDB.Expand, h]
  · intro realOff hs hne
    have hlo : coarsedb.linkOffset x id = .error .seekMismatch := by
      have hne1 : ¬ wrap64 (wrap64 id * 8) = realOff := fun h => hne (Eq.symm h)
      simp only [CoarseDB.linkOffset, hs, ne_eq, hne1, not_false_eq_true, if_true]
    simp only [CoarseDB.Expand, hlo]
  · intro off e h hs
    simp only [CoarseDB.Expand, h, hs]
  · intro off newOff h hs hne
    simp only [CoarseDB.Expand, h, hs, ne_eq, hne, not_false_eq_true, if_true]
  · intro off h hs hlen
    have hrd : read32 (coarsedb.FileLinks.drop off.toNat) = .error .ioError := by
      have h4 : ¬ (4 ≤ (coarsedb.FileLinks.drop off.toNat).length) := by omega
      simp only [read32, readN, h4, if_false]
    simp only [CoarseDB.Expand, h, hs, ne_eq, not_true_eq_false, if_false, hrd]
  · intro off numLinks recs tail out comdb1 h hs hsec hlt hmax hty hread
    have hrd := read32_be32 numLinks (recs.flatMap linkBytes ++ tail) ⟨by omega, hmax⟩
    have hneg : ¬ (numLinks < 0) := by omega
    obtain ⟨m, hm⟩ : ∃ m : Nat, numLinks.toNat = recs.length + (m + 1) :=
      ⟨numLinks.toNat - recs.length - 1, by omega⟩
    obtain ⟨ids1, hout, hids⟩ :=
      expandLoop_prefix x coarsedb recs hty comdb comdb1 (m + 1) tail [] [] out
        (by simpa using hread)
    have hexp : coarsedb.Expand x comdb id
        = expandLoop x coarsedb comdb1 (m + 1) tail ids1 ([] ++ out) := by
      simp only [CoarseDB.Expand, h, hs, ne_eq, not_true_eq_false, if_false, hsec, hrd, hneg,
        hm, hout]
    constructor
    · intro hshort
      rw [hexp]
      simp only [expandLoop, readLink_short tail hshort]
    · intro r rest e htail hr hfresh he
      have hnot : ¬ r.OrgSeqId ∈ ids1 := by
        rw [hids]
        simpa using hfresh
      have hc : ids1.contains r.OrgSeqId = false := by simpa using hnot
      rw [hexp, htail]
      simp only [expandLoop, readLink_linkBytes r rest hr, hc, Bool.false_eq_true, if_false, he]

/-- The claim C20 on coarse sequence 1 of `exampleBrokenCoarseDB`: the
original 42 of its first link is read, `ReadSeq` fails for the original 50
of its second link, and `Expand` returns that error. -/
theorem expand_error_no_partial_list_witness :
    readSeqCalls exampleExtern exampleBrokenCoarseDB exampleCompressedDB [42]
        = .ok ([{ Name := [0x73], Residues := [0x41, 0x42], Offset := 0, Id := 42 }],
            exampleCompressedDB)
      ∧ exampleCompressedDB.ReadSeq exampleExtern exampleBrokenCoarseDB 50 = .error .ioError
      ∧ exampleBrokenCoarseDB.Expand exampleExtern exampleCompressedDB 1 = .error .ioError :=
  ⟨rfl, rfl,
   ((expand_error_no_partial_list exampleExtern exampleBrokenCoarseDB exampleCompressedDB
      1).2.2.2.2.2 4 2 [NewLinkToCompressed 42 0 10]
      (linkBytes (NewLinkToCompressed 50 0 1) ++ [])
      [{ Name := [0x73], Residues := [0x41, 0x42], Offset := 0, Id := 42 }]
      exampleCompressedDB rfl rfl rfl (by decide) (by decide)
      (by decide) rfl).2 (NewLinkToCompressed 50 0 1) [] .ioError rfl (by decide) (by decide)
      rfl⟩

/-! ## C21, C22, C23: `SeqIdentity` -/

theorem specMatches_cons (x y : Nat) (a b : Bytes) :
    specMatches (x :: a) (y :: b) = (if x = y then 1 else 0) + specMatches a b := by
  unfold specMatches
  simp only [List.length_cons, List.range_succ_eq_map, List.filter_cons, List.filter_map,
    List.getElem?_cons_zero, Option.some.injEq]
  have h : ((fun i => decide ((x :: a)[i]? = (y :: b)[i]?)) ∘ Nat.succ)
      = (fun i => decide (a[i]? = b[i]?)) := by
    funext i; simp
  rw [h]
  by_cases hxy : x = y
  · simp [hxy]; omega
  · simp [hxy]

theorem specMatches_le (a b : Bytes) : specMatches a b ≤ a.length := by
  unfold specMatches
  exact (List.length_filter_le _ _).trans (by simp)

theorem specMatches_self (s : Bytes) : specMatches s s = s.length := by
  unfold specMatches; simp

theorem sameLoop_count (a : Bytes) : ∀ (b : Bytes) (same : Nat), a.length = b.length →
    same + a.length < 9223372036854775808 →
    sameLoop a b same = .ok ((same + specMatches a b : Nat) : Int) := by
  induction a with
  | nil => intro b same _ _; simp [sameLoop, specMatches]
  | cons x a ih =>
    intro b same hlen hfit
    cases b with
    | nil => simp at hlen
    | cons y b =>
      simp only [List.length_cons] at hlen hfit
      rw [sameLoop, specMatches_cons]
      by_cases hxy : x = y
      · have hw : wrap64 ((same : Int) + 1) = ((same + 1 : Nat) : Int) := by
          rw [wrap64_small _ (by omega)]; push_cast; rfl
        simp only [hxy, if_true, hw]
        rw [ih b (same + 1) (by omega) (by omega), Nat.add_assoc]
      · simp only [hxy, if_false]
        rw [ih b same (by omega) (by omega), Nat.zero_add]

theorem sameLoop_comm (a : Bytes) : ∀ (b : Bytes) (same : Int), a.length = b.length →
    sameLoop a b same = sameLoop b a same := by
  induction a with
  | nil => intro b same h; cases b with
    | nil => rfl
    | cons y b => simp at h
  | cons x a ih =>
    intro b same h
    cases b with
    | nil => simp at h
    | cons y b =>
      simp only [List.length_cons, Nat.add_right_cancel_iff] at h
      rw [sameLoop, sameLoop, ih b _ h]
      by_cases hxy : x = y
      · simp [hxy]
      · have hyx : ¬ y = x := fun e => hxy e.symm
        simp [hxy, hyx]

theorem seqIdentity_value (a b : Bytes) (hlen : a.length = b.length) (hne : a ≠ [])
    (hfit : a.length ≤ 92233720368547758) :
    SeqIdentity a b = .ok (((100 * specMatches a b / a.length : Nat)) : Int) := by
  have hpos : 0 < a.length := List.length_pos.mpr hne
  have hm := specMatches_le a b
  unfold SeqIdentity
  have h0 := sameLoop_count a b 0 hlen (by omega)
  simp only [Nat.cast_zero] at h0
  rw [if_neg (by simp [hlen]), if_neg (by omega), h0]
  simp only [Nat.zero_add]
  have hw : wrap64 (((specMatches a b : Nat) : Int) * 100) = ((100 * specMatches a b : Nat) : Int) := by
    rw [wrap64_small _ (by omega)]; push_cast; ring
  rw [hw, Int.tdiv_eq_ediv (by omega) (by omega), Int.natCast_div]

/-- C21: for every non-empty byte string `s` (of a length a slice can
have, so that `same * 100` stays an `int`), `SeqIdentity(s, s)` returns
100. -/
theorem seqIdentity_self (s : Bytes) (hne : s ≠ []) (hfit : s.length ≤ 92233720368547758) :
    SeqIdentity s s = .ok 100 := by
  rw [seqIdentity_value s s rfl hne hfit, specMatches_self]
  have hpos : 0 < s.length := List.length_pos.mpr hne
  rw [Nat.mul_div_cancel _ hpos]; rfl

/-- The claim C21 on the three bytes `ACG`. -/
theorem seqIdentity_self_witness :
    ([0x41, 0x43, 0x47] : Bytes) ≠ [] ∧ SeqIdentity [0x41, 0x43, 0x47] [0x41, 0x43, 0x47] = .ok 100 :=
  ⟨by decide, seqIdentity_self [0x41, 0x43, 0x47] (by decide) (by simp)⟩

/-- C22: `SeqIdentity(a, b)` and `SeqIdentity(b, a)` are the same result
for all byte strings `a` and `b`, of equal length or not (both calls panic
when the lengths differ). -/
theorem seqIdentity_comm (a b : Bytes) : SeqIdentity a b = SeqIdentity b a := by
  unfold SeqIdentity
  by_cases hlen : a.length = b.length
  · rw [sameLoop_comm a b 0 hlen, hlen]

  · have hlen2 : ¬ b.length = a.length := fun e => hlen e.symm
    simp [hlen, hlen2]

/-- C23: for byte strings `a` and `b` of equal length (a length a slice
can have), `SeqIdentity(a, b)` returns a value `r` with
`r = floor(100 * m / len(a))` when the strings are not empty, `m` the
number of positions at which they agree; `0 ≤ r ≤ 100`; and `r = 0` when
both are empty. -/
theorem seqIdentity_floor_percent (a b : Bytes) (hlen : a.length = b.length)
    (hfit : a.length ≤ 92233720368547758) :
    ∃ r : Int, SeqIdentity a b = .ok r
      ∧ (a ≠ [] → r = ((100 * specMatches a b / a.length : Nat) : Int))
      ∧ 0 ≤ r ∧ r ≤ 100
      ∧ (a = [] → b = [] → r = 0) := by
  by_cases hne : a = []
  · subst hne
    have hb : b = [] := List.length_eq_zero.mp hlen.symm
    subst hb
    exact ⟨0, by simp [SeqIdentity], by simp, le_refl _, by norm_num, fun _ _ => rfl⟩
  · have hpos : 0 < a.length := List.length_pos.mpr hne
    have hm := specMatches_le a b
    refine ⟨_, seqIdentity_value a b hlen hne hfit, fun _ => rfl, by positivity, ?_,
      fun h => absurd h hne⟩
    have : 100 * specMatches a b / a.length ≤ 100 := by
      apply Nat.div_le_of_le_mul
      nlinarith
    exact_mod_cast this

/-- The claim C23 on `ACG` and `ATG`, which agree at two of three
positions. -/
theorem seqIdentity_floor_percent_witness :
    ∃ r : Int, SeqIdentity [0x41, 0x43, 0x47] [0x41, 0x54, 0x47] = .ok r
      ∧ (([0x41, 0x43, 0x47] : Bytes) ≠ [] →
          r = ((100 * specMatches [0x41, 0x43, 0x47] [0x41, 0x54, 0x47]
            / ([0x41, 0x43, 0x47] : Bytes).length : Nat) : Int))
      ∧ 0 ≤ r ∧ r ≤ 100
      ∧ (([0x41, 0x43, 0x47] : Bytes) = [] → ([0x41, 0x54, 0x47] : Bytes) = [] → r = 0) :=
  seqIdentity_floor_percent [0x41, 0x43, 0x47] [0x41, 0x54, 0x47] (by decide) (by simp)

/-! ## C24: the chain of links under `AddLink` -/

theorem addLinkCalls_eq (ls : List LinkToCompressed) : ∀ rseq : CoarseSeq,
    rseq.linkLock = true →
    AddLinkCalls rseq ls = .ok { rseq with Links := rseq.Links ++ ls } := by
  induction ls with
  | nil => intro rseq _; simp [AddLinkCalls]
  | cons l more ih =>
    intro rseq hlock
    rw [AddLinkCalls, CoarseSeq.AddLink, if_pos hlock, addLink_eq]
    exact (ih { rseq with Links := rseq.Links ++ [l] } hlock).trans (by simp)

/-- C24 (amended): for a coarse sequence whose `linkLock` is set (one
built by `NewCoarseSeq`) and whose chain is empty, the calls
`AddLink(l1)` .. `AddLink(ln)` with links of their own all return and
leave the chain `l1..ln` in this order; after the first `k` calls the
chain is `l1..lk`, so a later call changes no earlier link; and the
payload of `saveLinks` holds, at the place of this sequence, the count
and then the records of `l1..ln` in the same order. -/
theorem addLink_insertion_order (rseq : CoarseSeq) (ls : List LinkToCompressed)
    (hempty : rseq.Links = []) (hlock : rseq.linkLock = true) :
    AddLinkCalls rseq ls = .ok { rseq with Links := ls }
      ∧ (∀ k, AddLinkCalls rseq (ls.take k) = .ok { rseq with Links := ls.take k })
      ∧ (∀ pre post : List CoarseSeq,
          saveLinksPayload (pre ++ { rseq with Links := ls } :: post)
            = saveLinksPayload pre
              ++ (be32 (wrap32 ls.length) ++ ls.flatMap linkBytes)
              ++ saveLinksPayload post) := by
  refine ⟨?_, fun k => ?_, fun pre post => ?_⟩
  · rw [addLinkCalls_eq ls rseq hlock, hempty]; rfl
  · rw [addLinkCalls_eq _ rseq hlock, hempty]; rfl
  · simp [saveLinksPayload, seqLinksBytes]

/-- The three links `(7, 0, 2)`, `(8, 1, 3)`, `(7, 2, 3)` on a sequence
built by `NewCoarseSeq`. -/
theorem addLink_insertion_order_witness :
    AddLinkCalls (NewCoarseSeq exampleExtern.caseTab 0 [0x73] [0x41, 0x42, 0x43])
        [NewLinkToCompressed 7 0 2, NewLinkToCompressed 8 1 3, NewLinkToCompressed 7 2 3]
      = .ok { NewCoarseSeq exampleExtern.caseTab 0 [0x73] [0x41, 0x42, 0x43] with
              Links := [NewLinkToCompressed 7 0 2, NewLinkToCompressed 8 1 3,
                NewLinkToCompressed 7 2 3] } :=
  (addLink_insertion_order (NewCoarseSeq exampleExtern.caseTab 0 [0x73] [0x41, 0x42, 0x43])
    [NewLinkToCompressed 7 0 2, NewLinkToCompressed 8 1 3, NewLinkToCompressed 7 2 3]
    rfl rfl).1

/-- C24 (counterexample): the coarse sequence `NewSubSequence` returns
has an empty chain and no `linkLock`; `AddLink` on it panics and no link
is added. -/
theorem addLink_subsequence_counterexample :
    ∃ sub : CoarseSeq,
      (NewCoarseSeq exampleExtern.caseTab 0 [0x73] [0x41, 0x42, 0x43]).NewSubSequence
          exampleExtern.caseTab 0 2 = .ok sub
        ∧ sub.Links = []
        ∧ sub.AddLink [NewLinkToCompressed 7 0 2] = .error .panic := by
  refine ⟨{ tosequence := { Name := [0x73], Residues := [0x41, 0x42], Offset := 0, Id := 0 },
            Links := [], linkLock := false }, rfl, rfl, rfl⟩

/-! ## C25: the seeds file -/

theorem saveSeedsFrom_spec (locs : List (List SeedLoc))
    (hlen : ∀ chain ∈ locs, chain.length < 2147483648) :
    ∀ n i : Nat, i + n ≤ locs.length →
      saveSeedsFrom locs n i = .ok (specSeedsPayload ((locs.drop i).take n) i) := by
  intro n
  induction n with
  | zero => intro i _; simp [saveSeedsFrom, specSeedsPayload]
  | succ n ih =>
    intro i hi
    have hlt : i < locs.length := by omega
    have hget : locs[i]? = some locs[i] := List.getElem?_eq_getElem hlt
    have hmem : locs[i] ∈ locs := List.getElem_mem hlt
    have hc := hlen _ hmem
    have hw : wrap32 ((locs[i].length : Nat) : Int) = ((locs[i].length : Nat) : Int) :=
      wrap32_small _ ⟨by omega, by omega⟩
    rw [saveSeedsFrom, hget]
    simp only
    rw [ih (i + 1) (by omega), List.drop_eq_getElem_cons hlt, List.take_succ_cons,
      specSeedsPayload, hw]
    by_cases he : locs[i].isEmpty = true
    · simp [he]
    · simp [he]

theorem addSeedLoc_append (locs : List (List SeedLoc)) (h : Nat) (chain : List SeedLoc)
    (sl : SeedLoc) (hget : locs[h]? = some chain) :
    addSeedLoc locs (h : Int) sl = .ok (locs.set h (chain ++ [sl])) := by
  unfold addSeedLoc
  rw [if_neg (by omega)]
  simp only [Int.toNat_ofNat, hget]
  cases chain with
  | nil => rfl
  | cons lk more => simp [setLastNext_eq]

theorem readSeedLocs_chain (h : Nat) (ls : List SeedLoc) (hty : ∀ l ∈ ls, l.typed) :
    ∀ (locs : List (List SeedLoc)) (chain : List SeedLoc) (rest : Bytes),
      locs[h]? = some chain →
      readSeedLocs (h : Int) ls.length (ls.flatMap seedLocBytes ++ rest) locs
        = .ok (locs.set h (chain ++ ls), rest) := by
  induction ls with
  | nil =>
    intro locs chain rest hget
    simp [readSeedLocs, set_of_getElem_some locs h chain hget]
  | cons l ls ih =>
    intro locs chain rest hget
    have hl : l.typed := hty l (List.mem_cons_self _ _)
    have hk : h < locs.length := (List.getElem?_eq_some.mp hget).1
    have hnext : (locs.set h (chain ++ [l]))[h]? = some (chain ++ [l]) := by
      simp [List.getElem?_set_self, hk]
    have hrec := ih (fun l' hl' => hty l' (List.mem_cons_of_mem _ hl'))
      (locs.set h (chain ++ [l])) (chain ++ [l]) rest hnext
    simp only [List.flatMap_cons, List.length_cons, readSeedLocs, seedLocBytes,
      List.append_assoc]
    rw [read32_be32 _ _ ⟨hl.1, hl.2.1⟩]
    simp only [read16_be16 _ _ ⟨hl.2.2.1, hl.2.2.2⟩, NewSeedLoc,
      addSeedLoc_append locs h chain _ hget]
    have heta : ({ SeqInd := l.SeqInd, ResInd := l.ResInd } : SeedLoc) = l := rfl
    rw [heta, hrec]
    simp [List.set_set]

theorem readSeedsLoop_buckets (todo : List (List SeedLoc))
    (hty : ∀ chain ∈ todo, ∀ l ∈ chain, l.typed)
    (hlen : ∀ chain ∈ todo, chain.length < 2147483648) :
    ∀ (done : List (List SeedLoc)) (fuel : Nat),
      done.length + todo.length ≤ 2147483648 →
      (specSeedsPayload todo done.length).length < fuel →
      readSeedsLoop fuel (specSeedsPayload todo done.length)
          (done ++ List.replicate todo.length [])
        = .ok (done ++ todo) := by
  induction todo with
  | nil =>
    intro done fuel _ hf
    cases fuel with
    | zero => omega
    | succ f => simp [specSeedsPayload, readSeedsLoop, read32, readN]
  | cons chain more ih =>
    intro done fuel hsz hf
    have ih' := ih (fun c hc => hty c (List.mem_cons_of_mem _ hc))
      (fun c hc => hlen c (List.mem_cons_of_mem _ hc)) (done ++ [chain])
    simp only [List.length_append, List.length_singleton, List.append_assoc,
      List.singleton_append] at ih'
    simp only [List.length_cons] at hsz
    by_cases he : chain = []
    · subst he
      simp only [specSeedsPayload, List.isEmpty_nil, if_true, List.nil_append, List.length_cons,
        List.replicate_succ] at hf ⊢
      exact ih' fuel (by omega) hf
    · cases fuel with
      | zero => omega
      | succ f =>
        have hne : chain.isEmpty = false := by
          cases chain with
          | nil => exact absurd rfl he
          | cons a t => rfl
        have hc := hlen chain (List.mem_cons_self _ _)
        have h4 : ∀ v : Int, (be32 v).length = 4 := fun v => beNat_length _ _
        simp only [specSeedsPayload, hne, Bool.false_eq_true, if_false, List.append_assoc,
          List.length_cons, List.replicate_succ, List.length_append, h4] at hf ⊢
        rw [readSeedsLoop, read32_be32 _ _ ⟨by omega, by omega⟩]
        simp only
        rw [read32_be32 _ _ ⟨by omega, by omega⟩]
        simp only [Int.toNat_ofNat]
        rw [readSeedLocs_chain done.length chain (hty chain (List.mem_cons_self _ _)) _ [] _
          (getElem?_length_append _ _ _)]
        simp only [List.nil_append, set_length_append]
        exact ih' f (by omega) (by omega)

/-- C25 (amended): a seed table of `A^k` buckets with `A^k < 2^31`, every
chain of fewer than 2^31 locations, every location with values of the
width of its fields.  The unframed payload of `saveSeeds` is the one the
specification describes (for exactly the buckets that are not empty, in
ascending order, `i32 h`, `i32 count` and the `count` records in chain
order), and `readSeeds` on this payload, started on the empty table of
the same size, returns and gives back the table: every bucket with the
same locations in the same order. -/
theorem seeds_roundtrip (seeds : Seeds) (p : Int)
    (hp : seeds.powers[seeds.SeedSize]? = some p)
    (hsize : (seeds.Locs.length : Int) = p)
    (hsmall : p < 2147483648)
    (hty : ∀ chain ∈ seeds.Locs, ∀ l ∈ chain, l.typed)
    (hlen : ∀ chain ∈ seeds.Locs, chain.length < 2147483648) :
    saveSeedsPayload seeds = .ok (specSeedsPayload seeds.Locs 0)
      ∧ readSeedsPayload (specSeedsPayload seeds.Locs 0)
          (List.replicate seeds.Locs.length []) = .ok seeds.Locs := by
  constructor
  · unfold saveSeedsPayload
    rw [hp]
    simp only
    have hw : (wrap32 p).toNat = seeds.Locs.length := by
      rw [wrap32_small p ⟨by omega, hsmall⟩, ← hsize]; rfl
    rw [hw, saveSeedsFrom_spec seeds.Locs hlen _ 0 (by omega)]
    simp
  · unfold readSeedsPayload
    have h := readSeedsLoop_buckets seeds.Locs hty hlen []
      ((specSeedsPayload seeds.Locs 0).length + 1) (by simp; omega) (by simp)
    simpa using h

/-- The claim C25 (amended) on `exampleSeeds`, with the bytes of the
payload written out. -/
theorem seeds_roundtrip_witness :
    (saveSeedsPayload exampleSeeds = .ok (specSeedsPayload exampleSeeds.Locs 0)
      ∧ readSeedsPayload (specSeedsPayload exampleSeeds.Locs 0)
          (List.replicate exampleSeeds.Locs.length []) = .ok exampleSeeds.Locs)
      ∧ specSeedsPayload exampleSeeds.Locs 0
        = [0, 0, 0, 1, 0, 0, 0, 2, 0, 0, 0, 3, 0, 1, 0, 0, 0, 4, 0, 2,
           0, 0, 0, 3, 0, 0, 0, 1, 0, 0, 0, 5, 0, 0] :=
  ⟨seeds_roundtrip exampleSeeds 4 rfl rfl (by decide) (by decide) (by decide), by decide⟩

theorem saveSeedsFrom_empty (locs : List (List SeedLoc)) :
    ∀ n i : Nat, (∀ j, i ≤ j → j < i + n → locs[j]? = some []) →
      saveSeedsFrom locs n i = .ok [] := by
  intro n
  induction n with
  | zero => intro i _; rfl
  | succ n ih =>
    intro i h
    rw [saveSeedsFrom, h i (le_refl _) (by omega)]
    simp only
    rw [ih (i + 1) (fun j h1 h2 => h j (by omega) (by omega))]
    rfl

theorem lastBucket_getElem? (n j : Nat) (loc : SeedLoc) (h : j < n) :
    (List.replicate n ([] : List SeedLoc) ++ [[loc]])[j]? = some [] := by
  rw [List.getElem?_append_left (by simpa using h), List.getElem?_replicate, if_pos h]

theorem lastBucket_payload (n m : Nat) (hm : m ≤ n)
    (hw : (wrap32 ((n + 1 : Nat) : Int)).toNat = m) :
    saveSeedsPayload (lastBucketSeeds n) = .ok [] := by
  have hp : (lastBucketSeeds n).powers[(lastBucketSeeds n).SeedSize]?
      = some ((n + 1 : Nat) : Int) := rfl
  unfold saveSeedsPayload
  rw [hp]
  simp only
  rw [hw]
  exact saveSeedsFrom_empty _ m 0 (fun j _ hj => lastBucket_getElem? n j _ (by omega))

theorem readSeedsPayload_nil (locs : List (List SeedLoc)) :
    readSeedsPayload [] locs = .ok locs := by
  simp [readSeedsPayload, readSeedsLoop, read32, readN]

theorem zeroLocs_payload (n : Nat) :
    (List.replicate n (NewSeedLoc 0 0)).flatMap seedLocBytes = List.replicate (6 * n) 0 := by
  induction n with
  | zero => rfl
  | succ n ih =>
    have h6 : seedLocBytes (NewSeedLoc 0 0) = List.replicate 6 0 := by decide
    rw [List.replicate_succ, List.flatMap_cons, ih, h6, List.append_replicate_replicate]
    congr 1
    omega

theorem readSeedsLoop_zeros (m : Nat) :
    ∀ (fuel : Nat) (locs : List (List SeedLoc)), m < fuel →
      readSeedsLoop fuel (List.replicate (8 * m) 0) locs = .ok locs := by
  induction m with
  | zero =>
    intro fuel locs hf
    cases fuel with
    | zero => omega
    | succ f => simp [readSeedsLoop, read32, readN]
  | succ m ih =>
    intro fuel locs hf
    cases fuel with
    | zero => omega
    | succ f =>
      have hrep : List.replicate (8 * (m + 1)) 0
          = 0 :: 0 :: 0 :: 0 :: 0 :: 0 :: 0 :: 0 :: List.replicate (8 * m) 0 := by
        rw [show 8 * (m + 1) = 8 * m + 1 + 1 + 1 + 1 + 1 + 1 + 1 + 1 by omega]
        simp [List.replicate_succ]
      have hrd : ∀ s : Bytes, read32 (0 :: 0 :: 0 :: 0 :: s) = .ok (0, s) := by
        intro s
        simp [read32, readN, beVal, wrap32]
      rw [hrep]
      simp only [readSeedsLoop, hrd, Int.toNat_zero, readSeedLocs]
      exact ih f locs (by omega)

theorem zeroSeeds_payload (n : Nat) (hn : n ≠ 0) :
    saveSeedsPayload (zeroSeeds n)
      = .ok (be32 0 ++ be32 (wrap32 (n : Int)) ++ List.replicate (6 * n) 0) := by
  have he : (List.replicate n (NewSeedLoc 0 0)).isEmpty = false := by
    cases n with
    | zero => exact absurd rfl hn
    | succ k => rfl
  have hone : (wrap32 1).toNat = 1 := by decide
  simp only [saveSeedsPayload, zeroSeeds, List.getElem?_cons_zero, hone, saveSeedsFrom, he,
    Bool.false_eq_true, if_false, zeroLocs_payload, List.length_replicate, List.append_nil,
    Nat.cast_zero]

theorem readSeedsLoop_negative_count (q : Nat) (c : Int)
    (hrange : -2147483648 ≤ c ∧ c < 2147483648) (h : c ≤ 0) (locs : List (List SeedLoc)) :
    readSeedsPayload (be32 0 ++ be32 c ++ List.replicate (6 * (4 * q)) 0) locs = .ok locs := by
  have hc : c.toNat = 0 := Int.toNat_of_nonpos h
  have h4 : ∀ v : Int, (be32 v).length = 4 := fun v => beNat_length _ _
  unfold readSeedsPayload
  rw [List.append_assoc, readSeedsLoop, read32_be32 _ _ ⟨by norm_num, by norm_num⟩]
  simp only
  rw [read32_be32 _ _ hrange]
  simp only [hc, readSeedLocs]
  rw [show 6 * (4 * q) = 8 * (3 * q) by omega]
  exact readSeedsLoop_zeros (3 * q) _ _
    (by simp only [List.length_append, h4, List.length_replicate]; omega)

theorem zeroSeeds_count_overflow (n q : Nat) (hq : n = 4 * q) (hn : n ≠ 0)
    (h : wrap32 (n : Int) ≤ 0) :
    ∃ payload, saveSeedsPayload (zeroSeeds n) = .ok payload
      ∧ readSeedsPayload payload [[]] = .ok [[]] := by
  refine ⟨_, zeroSeeds_payload n hn, ?_⟩
  rw [hq]
  rw [hq] at h
  exact readSeedsLoop_negative_count q _ (wrap32_range _) h _

theorem lastBucket_power (n : Nat) :
    (lastBucketSeeds n).powers[(lastBucketSeeds n).SeedSize]? = some ((n : Int) + 1) := by
  simp [lastBucketSeeds]

theorem lastBucket_length (n : Nat) : (lastBucketSeeds n).Locs.length = n + 1 := by
  simp [lastBucketSeeds]

theorem lastBucket_last (n : Nat) :
    (lastBucketSeeds n).Locs[n]? = some [NewSeedLoc 0 0] := by
  have h := getElem?_length_append (List.replicate n ([] : List SeedLoc)) [NewSeedLoc 0 0] []
  rw [List.length_replicate] at h
  exact h

theorem zeroSeeds_lengths (n : Nat) : (zeroSeeds n).Locs.map List.length = [n] := by
  simp [zeroSeeds]

/-- C25 (counterexample), in two parts.  First the table of `28^7`
buckets (`A = 28`, `k = 7`) whose last bucket holds one location: the
bound of the loop of `saveSeeds` is `int32(28^7) = 608026624`, the payload
is empty, and `readSeeds` on it leaves every bucket of the empty table
empty.  Then the table of one bucket whose chain holds 2^31 locations
`(0, 0)`: the count is kept in an `int32` and written as -2^31, and
`readSeeds` leaves the bucket empty. -/
theorem seeds_roundtrip_counterexample :
    ((lastBucketSeeds 13492928511).powers[(lastBucketSeeds 13492928511).SeedSize]?
          = some 13492928512
        ∧ (lastBucketSeeds 13492928511).Locs.length = 13492928512
        ∧ (lastBucketSeeds 13492928511).Locs[13492928511]? = some [NewSeedLoc 0 0]
        ∧ saveSeedsPayload (lastBucketSeeds 13492928511) = .ok []
        ∧ ∀ locs, readSeedsPayload [] locs = .ok locs)
      ∧ ((zeroSeeds 2147483648).Locs.map List.length = [2147483648]
        ∧ ∃ payload, saveSeedsPayload (zeroSeeds 2147483648) = .ok payload
            ∧ readSeedsPayload payload [[]] = .ok [[]]) :=
  ⟨⟨lastBucket_power 13492928511, lastBucket_length 13492928511, lastBucket_last 13492928511,
      lastBucket_payload 13492928511 608026624 (by norm_num) (by simp [wrap32]),
      readSeedsPayload_nil⟩,
    zeroSeeds_lengths 2147483648,
    zeroSeeds_count_overflow 2147483648 536870912 (by norm_num) (by norm_num)
      (by simp [wrap32])⟩

/-! ## C26: the writer on files that hold records -/

theorem writer_offsets_from_zero (x : Extern) (comdb db : CompressedDB)
    (sent : List CompressedSeq) (hfile : comdb.File.length ≤ 9223372036854775807)
    (h : CompressedDB.writer x comdb sent = .ok db) :
    db.File = comdb.File ++ (writerRecords x sent).flatten
      ∧ db.Index = comdb.Index
          ++ (recordOffsets 0 (writerRecords x sent)).flatMap (fun o => be64 (o : Int)) := by
  unfold CompressedDB.writer at h
  split at h
  · cases h
  · next st hst =>
    cases h
    obtain ⟨hf, hi, _⟩ := writerLoop_inv x sent _ st 0 rfl (Nat.zero_le _) hfile hst
    exact ⟨hf, hi⟩

/-- C26 (code at the failing input): the data file holds the one record
`s,0,0,2,` (9 bytes) and the index file its offset 0; the writer receives
the sequence `t` without links.  It runs through, the record `t` begins at
byte 9 of the data file, and the index entry written for it is 0: the
variable `byteOffset` starts at 0 whatever the files hold. -/
theorem writer_append_first_offset :
    ∃ db, CompressedDB.writer exampleExtern
          { File := [0x73, 0x2C, 0x30, 0x2C, 0x30, 0x2C, 0x32, 0x2C, 0x0A], Index := be64 0 }
          [{ Id := 1, Name := [0x74], Links := [] }] = .ok db
      ∧ db.File = [0x73, 0x2C, 0x30, 0x2C, 0x30, 0x2C, 0x32, 0x2C, 0x0A] ++ [0x74, 0x0A]
      ∧ db.File.drop 9 = [0x74, 0x0A]
      ∧ read64 (db.Index.drop 8) = .ok (0, [])
      ∧ db.File.take 9 = [0x73, 0x2C, 0x30, 0x2C, 0x30, 0x2C, 0x32, 0x2C, 0x0A] :=
  ⟨_, rfl, rfl, rfl, rfl, rfl⟩

end cablastp
